import Mathlib

/-!
# Verification of the predex generalized pattern-matching engine

Shallow embedding of the predex core (pattern tree, Thompson compiler,
epsilon-closure / subset-simulation batch engine, streaming scanner,
pattern builder) together with proofs about the properties its
specification states.

Conventions of the embedding:
* NFA states live in an arena (a list); a state is referred to by its
  integer id, which equals its index in the arena (the TypeScript code
  uses object identity plus a numeric `id` assigned in creation order).
* JavaScript's insertion-ordered `Set` objects become duplicate-free
  `List Nat` values in insertion order.
* The `-1` sentinel of `lastAcceptLength` becomes `Option Nat` (`none`
  for `-1`).
* The `Infinity` total-length sentinel used by the streaming scanner
  becomes `none : Option Nat`.
* Imperative loops become fuel-indexed structural recursions; the fuel
  supplied by the wrappers is proven (or, for the scanner, checked on
  concrete runs) to be sufficient.
-/

namespace Predex

/-- `Predicate<T> = (element: T) => boolean` from ast.ts. -/
abbrev Predicate (T : Type) := T → Bool

/-- Anchor positions, `'start' | 'end'` from ast.ts (`end` is a Lean
keyword, so the second constructor is named `stop`). -/
inductive AnchorPos where
  | start : AnchorPos
  | stop : AnchorPos
deriving DecidableEq, Repr

/-- Pattern tree node (ast.ts).  `max = none` models `max = Infinity`. -/
inductive PatternNode (T : Type) where
  | predicate (fn : Predicate T) : PatternNode T
  | sequence (children : List (PatternNode T)) : PatternNode T
  | quantifier (child : PatternNode T) (min : Nat) (max : Option Nat)
      (greedy : Bool) : PatternNode T
  | alternation (left right : PatternNode T) : PatternNode T
  | anchor (position : AnchorPos) : PatternNode T
  | any : PatternNode T

mutual
/-- `isGreedy` from ast.ts: a tree is greedy overall iff every quantifier
in it is greedy (`children.every(isGreedy)` on sequences). -/
def isGreedy {T : Type} : PatternNode T → Bool
  | .predicate _ => true
  | .anchor _ => true
  | .any => true
  | .sequence children => isGreedyL children
  | .quantifier child _ _ greedy => greedy && isGreedy child
  | .alternation left right => isGreedy left && isGreedy right
/-- `children.every(isGreedy)` (left-to-right, short-circuiting). -/
def isGreedyL {T : Type} : List (PatternNode T) → Bool
  | [] => true
  | c :: cs => isGreedy c && isGreedyL cs
end

/-- One NFA state (nfa.ts `NFAState<T>`): epsilon targets in insertion
order, predicate-guarded transitions in insertion order, optional anchor
guard.  The numeric `id` of the TypeScript state is the state's index in
the owning arena. -/
structure NFAState (T : Type) where
  epsilons : List Nat
  transitions : List (Predicate T × Nat)
  anchorCheck : Option AnchorPos

/-- A compiled NFA (nfa.ts `NFA<T>`): the state arena plus the ids of the
entry and accept states. -/
structure NFA (T : Type) where
  states : List (NFAState T)
  start : Nat
  accept : Nat

/-- The anchor guards installed by `compileAnchor` (nfa.ts): for `start`,
`index === 0` (the length is ignored); for `end`, `index === length`,
which is false for every finite index when the length is the streaming
`Infinity` sentinel (`none`). -/
def anchorOk : AnchorPos → Nat → Option Nat → Bool
  | .start, index, _ => index == 0
  | .stop, index, some length => index == length
  | .stop, _, none => false

/-- `state.anchorCheck && !state.anchorCheck(position, seqLength)` prunes
a state; `anchorPass` is true when the state survives. -/
def anchorPass {T : Type} (st : NFAState T) (position : Nat)
    (seqLength : Option Nat) : Bool :=
  match st.anchorCheck with
  | none => true
  | some a => anchorOk a position seqLength

/-- One iteration of the `while (stack.length > 0)` loop of
`epsilonClosure` (engine.ts).  The configuration is `(stack, result)`;
the stack's head is its top (the TypeScript code pops from the end of an
array), and `result` is the insertion-ordered set being built. -/
def closureStep {T : Type} (states : List (NFAState T)) (position : Nat)
    (seqLength : Option Nat) : List Nat × List Nat → List Nat × List Nat
  | ([], result) => ([], result)
  | (s :: rest, result) =>
    if s ∈ result then (rest, result)
    else
      match states[s]? with
      | none => (rest, result)
      | some st =>
        if anchorPass st position seqLength then
          let result' := result ++ [s]
          (((st.epsilons.filter (fun t => ¬ t ∈ result')).reverse) ++ rest,
            result')
        else (rest, result)

/-- Fuel-indexed run of the `epsilonClosure` loop. -/
def closureRun {T : Type} (states : List (NFAState T)) (position : Nat)
    (seqLength : Option Nat) : Nat → List Nat × List Nat → List Nat × List Nat
  | 0, c => c
  | fuel + 1, c =>
    if c.1 = [] then c
    else closureRun states position seqLength fuel
      (closureStep states position seqLength c)

/-- Total number of epsilon edges in the arena. -/
def epsSum {T : Type} (states : List (NFAState T)) : Nat :=
  (states.map fun st => st.epsilons.length).sum

/-- Fuel that provably suffices to drain the closure work stack. -/
def closureFuel {T : Type} (states : List (NFAState T))
    (seeds : List Nat) : Nat :=
  seeds.length + states.length * (epsSum states + 1)

/-- `epsilonClosure(states, position, seqLength)` from engine.ts.  The
seed set is given in insertion order; the initial stack is its spread
(popped from the end, hence reversed here). -/
def epsilonClosure {T : Type} (states : List (NFAState T))
    (seeds : List Nat) (position : Nat) (seqLength : Option Nat) :
    List Nat :=
  (closureRun states position seqLength (closureFuel states seeds)
    (seeds.reverse, [])).2

/-- `next.add(target)` on the insertion-ordered `next` set. -/
def addUnique (l : List Nat) (x : Nat) : List Nat :=
  if x ∈ l then l else l ++ [x]

/-- The inner transition scan of `simulate`/`Scanner.step`: the union,
over every predicate-guarded edge of every active state, of the targets
whose predicate accepts the element, in insertion order. -/
def stepActive {T : Type} (states : List (NFAState T)) (active : List Nat)
    (element : T) : List Nat :=
  active.foldl
    (fun next s =>
      match states[s]? with
      | none => next
      | some st =>
        st.transitions.foldl
          (fun next2 tr => if tr.1 element then addUnique next2 tr.2 else next2)
          next)
    []

/-- Result record of `simulate`. -/
structure SimResult where
  matched : Bool
  length : Nat
deriving DecidableEq, Repr

/-- The `for (let i = offset; i < sequence.length; i++)` loop of
`simulate` (engine.ts).  `xs` is the not-yet-consumed suffix of the
sequence (starting at absolute index `offset + k`), and `last` is the
`lastAcceptLength` register (`none` for `-1`, `some v` for a recorded
candidate of length `v`). -/
def simulateLoop {T : Type} (nfa : NFA T) (len : Nat) (greedy : Bool)
    (offset : Nat) : List T → Nat → List Nat → Option Nat → Option Nat
  | [], _, _, last => last
  | x :: rest, k, active, last =>
    let next := stepActive nfa.states active x
    let active' := epsilonClosure nfa.states next (offset + k + 1) (some len)
    if active' = [] then last
    else
      let last' := if nfa.accept ∈ active' then some (k + 1) else last
      if nfa.accept ∈ active' ∧ greedy = false then last'
      else simulateLoop nfa len greedy offset rest (k + 1) active' last'

/-- `simulate(nfa, sequence, offset, greedy)` from engine.ts. -/
def simulate {T : Type} (nfa : NFA T) (sequence : List T) (offset : Nat)
    (greedy : Bool) : SimResult :=
  let len := sequence.length
  let active := epsilonClosure nfa.states [nfa.start] offset (some len)
  let last : Option Nat := if nfa.accept ∈ active then some 0 else none
  if greedy = false ∧ last.isSome then ⟨true, 0⟩
  else
    let final :=
      simulateLoop nfa len greedy offset (sequence.drop offset) 0 active last
    ⟨final.isSome, final.getD 0⟩

/-- `MatchResult<T>` from engine.ts (`end` is a Lean keyword, so that
field is named `stop`). -/
structure MatchResult (T : Type) where
  start : Nat
  stop : Nat
  data : List T
deriving DecidableEq, Repr

/-- The `while (pos < sequence.length)` loop of `findAll` (engine.ts),
fuel-indexed.  Each iteration advances `pos` by at least one, so fuel
`sequence.length` makes the fuel-out case unreachable. -/
def findAllAux {T : Type} (nfa : NFA T) (greedy : Bool) (sequence : List T) :
    Nat → Nat → List (MatchResult T)
  | 0, _ => []
  | fuel + 1, pos =>
    if pos < sequence.length then
      let result := simulate nfa sequence pos greedy
      if result.matched = true ∧ 0 < result.length then
        { start := pos, stop := pos + result.length - 1,
          data := (sequence.drop pos).take result.length } ::
          findAllAux nfa greedy sequence fuel (pos + result.length)
      else findAllAux nfa greedy sequence fuel (pos + 1)
    else []

/-- `findAll(nfa, sequence, greedy)` from engine.ts. -/
def findAll {T : Type} (nfa : NFA T) (sequence : List T) (greedy : Bool) :
    List (MatchResult T) :=
  findAllAux nfa greedy sequence sequence.length 0

/-- The `while (pos < sequence.length)` loop of `findFirst` (engine.ts). -/
def findFirstAux {T : Type} (nfa : NFA T) (greedy : Bool) (sequence : List T) :
    Nat → Nat → Option (MatchResult T)
  | 0, _ => none
  | fuel + 1, pos =>
    if pos < sequence.length then
      let result := simulate nfa sequence pos greedy
      if result.matched = true ∧ 0 < result.length then
        some { start := pos, stop := pos + result.length - 1,
               data := (sequence.drop pos).take result.length }
      else findFirstAux nfa greedy sequence fuel (pos + 1)
    else none

/-- `findFirst(nfa, sequence, greedy)` from engine.ts. -/
def findFirst {T : Type} (nfa : NFA T) (sequence : List T) (greedy : Bool) :
    Option (MatchResult T) :=
  findFirstAux nfa greedy sequence sequence.length 0

/-- `test(nfa, sequence, greedy)` from engine.ts. -/
def test {T : Type} (nfa : NFA T) (sequence : List T) (greedy : Bool) :
    Bool :=
  (findFirst nfa sequence greedy).isSome

/-! ## The Thompson compiler (nfa.ts `compile`)

The compiler's mutable heap of state objects becomes an explicit builder:
the list of states created so far, where `createState()` appends a fresh
empty state whose id is the current length. -/

/-- The compiler's arena of created states, in creation (id) order. -/
abbrev Builder (T : Type) := List (NFAState T)

/-- `createState()` from nfa.ts. -/
def createState {T : Type} (b : Builder T) : Builder T × Nat :=
  (b ++ [⟨[], [], none⟩], b.length)

/-- `state.epsilons.push(...targets)` on the state with id `src`. -/
def pushEps {T : Type} (b : Builder T) (src : Nat) (tgts : List Nat) :
    Builder T :=
  match b[src]? with
  | none => b
  | some st => b.set src ⟨st.epsilons ++ tgts, st.transitions, st.anchorCheck⟩

/-- `state.transitions.push({predicate, target})` on the state `src`. -/
def pushTrans {T : Type} (b : Builder T) (src : Nat) (fn : Predicate T)
    (tgt : Nat) : Builder T :=
  match b[src]? with
  | none => b
  | some st => b.set src ⟨st.epsilons, st.transitions ++ [(fn, tgt)], st.anchorCheck⟩

/-- `state.anchorCheck = ...` on the state `src`. -/
def setAnchor {T : Type} (b : Builder T) (src : Nat) (a : AnchorPos) :
    Builder T :=
  match b[src]? with
  | none => b
  | some st => b.set src ⟨st.epsilons, st.transitions, some a⟩

/-- The `for (let i = 0; i < min; i++)` loop of `compileQuantifier`:
`n` mandatory back-to-back copies of the child, compiled by `f` and
chained by epsilon from the running `lastState`. -/
def compileCopies {T : Type} (f : Builder T → Builder T × Nat × Nat) :
    Nat → Builder T × Nat → Builder T × Nat
  | 0, st => st
  | n + 1, (b, lastState) =>
    let r := f b
    compileCopies f n (pushEps r.1 lastState [r.2.1], r.2.2)

/-- The `for (let i = min; i < max; i++)` loop of `compileQuantifier`:
`n` optional copies, each guarded by the two-epsilon priority pattern
(`[copy.start, accept]` if greedy, `[accept, copy.start]` if lazy). -/
def compileOptCopies {T : Type} (f : Builder T → Builder T × Nat × Nat)
    (accept : Nat) (greedy : Bool) :
    Nat → Builder T × Nat → Builder T × Nat
  | 0, st => st
  | n + 1, (b, lastState) =>
    let r := f b
    compileOptCopies f accept greedy n
      (pushEps r.1 lastState
        (if greedy then [r.2.1, accept] else [accept, r.2.1]), r.2.2)

/-- Epsilon-link `fragments[i].accept → fragments[i+1].start` for every
adjacent pair, as in `compileSequence`. -/
def linkFragments {T : Type} (b : Builder T) :
    List (Nat × Nat) → Builder T
  | [] => b
  | [_] => b
  | (_, a1) :: (s2, a2) :: rest =>
    linkFragments (pushEps b a1 [s2]) ((s2, a2) :: rest)

mutual
/-- `compileNode` from nfa.ts: compile one pattern node, returning the
extended builder and the fragment's `(start, accept)` ids. -/
def compileNode {T : Type} : PatternNode T → Builder T → Builder T × Nat × Nat
  | .predicate fn, b =>
    -- compilePredicate
    let (b1, start) := createState b
    let (b2, accept) := createState b1
    (pushTrans b2 start fn accept, start, accept)
  | .any, b =>
    -- case 'any': compilePredicate(() => true)
    let (b1, start) := createState b
    let (b2, accept) := createState b1
    (pushTrans b2 start (fun _ => true) accept, start, accept)
  | .sequence [], b =>
    -- empty sequence: single epsilon start → accept
    let (b1, start) := createState b
    let (b2, accept) := createState b1
    (pushEps b2 start [accept], start, accept)
  | .sequence [c], b => compileNode c b
  | .sequence (c1 :: c2 :: cs), b =>
    -- compile every child first, then epsilon-link adjacent fragments
    let r := compileChildren (c1 :: c2 :: cs) b
    let b' := linkFragments r.1 r.2
    (b', (r.2.headD (0, 0)).1, (r.2.getLastD (0, 0)).2)
  | .quantifier child min max greedy, b =>
    let (b1, start) := createState b
    let (b2, accept) := createState b1
    let r := compileCopies (fun bb => compileNode child bb) min (b2, start)
    match max with
    | none =>
      -- max === Infinity: one loop copy, cycle through the post-mandatory state
      let q := compileNode child r.1
      let b4 := pushEps q.1 r.2
        (if greedy then [q.2.1, accept] else [accept, q.2.1])
      (pushEps b4 q.2.2 [r.2], start, accept)
    | some m =>
      -- bounded: max - min optional copies, then epsilon to the accept
      let o := compileOptCopies (fun bb => compileNode child bb) accept greedy
        (m - min) (r.1, r.2)
      (pushEps o.1 o.2 [accept], start, accept)
  | .alternation left right, b =>
    let (b1, start) := createState b
    let (b2, accept) := createState b1
    let lr := compileNode left b2
    let rr := compileNode right lr.1
    let b5 := pushEps rr.1 start [lr.2.1, rr.2.1]
    let b6 := pushEps b5 lr.2.2 [accept]
    (pushEps b6 rr.2.2 [accept], start, accept)
  | .anchor position, b =>
    let (b1, start) := createState b
    let (b2, accept) := createState b1
    let b3 := setAnchor b2 start position
    (pushEps b3 start [accept], start, accept)
/-- `children.map(child => compileNode(child))` from `compileSequence`. -/
def compileChildren {T : Type} :
    List (PatternNode T) → Builder T → Builder T × List (Nat × Nat)
  | [], b => (b, [])
  | c :: cs, b =>
    let r := compileNode c b
    let rest := compileChildren cs r.1
    (rest.1, r.2 :: rest.2)
end

/-- `compile(node)` from nfa.ts. -/
def compile {T : Type} (node : PatternNode T) : NFA T :=
  let r := compileNode node []
  ⟨r.1, r.2.1, r.2.2⟩

/-! ## The streaming scanner (scanner.ts `Scanner<T>`)

The scanner's private mutable fields become an explicit state record;
`nfa` and `greedy` are passed to each operation.  `Infinity` becomes the
`none` length sentinel. -/

/-- The mutable fields of `Scanner<T>`. -/
structure ScannerState (T : Type) where
  position : Nat
  scanStart : Nat
  buffer : List T
  active : List Nat
  lastAcceptLength : Option Nat
  simulationAlive : Bool

/-- `this.lastAcceptLength > 0` (the sentinel `-1` is `none`). -/
def hasPositiveCandidate : Option Nat → Bool
  | some n => decide (0 < n)
  | none => false

/-- `initSimulation(startPos, seqLength)` from scanner.ts. -/
def initSimulation {T : Type} (nfa : NFA T) (startPos : Nat)
    (seqLength : Option Nat) (s : ScannerState T) : ScannerState T :=
  let active := epsilonClosure nfa.states [nfa.start] startPos seqLength
  { s with active := active,
           lastAcceptLength := if nfa.accept ∈ active then some 0 else none,
           simulationAlive := true }

/-- `step(element, absolutePosition, seqLength)` from scanner.ts. -/
def scannerStep {T : Type} (nfa : NFA T) (greedy : Bool) (element : T)
    (absolutePosition : Nat) (seqLength : Option Nat) (s : ScannerState T) :
    ScannerState T :=
  let next := stepActive nfa.states s.active element
  let active' := epsilonClosure nfa.states next (absolutePosition + 1) seqLength
  if active' = [] then { s with active := active', simulationAlive := false }
  else if nfa.accept ∈ active' then
    { s with active := active',
             lastAcceptLength := some (absolutePosition - s.scanStart + 1),
             simulationAlive := if greedy then s.simulationAlive else false }
  else { s with active := active' }

/-- `emitMatch()` from scanner.ts: build the `MatchResult` from the
buffer and advance `scanStart` past the match. -/
def emitMatch {T : Type} (s : ScannerState T) :
    MatchResult T × ScannerState T :=
  let bufferStart := s.position - s.buffer.length
  let matchStart := s.scanStart
  let matchLength := s.lastAcceptLength.getD 0
  let dataStart := matchStart - bufferStart
  ({ start := matchStart, stop := matchStart + matchLength - 1,
     data := (s.buffer.drop dataStart).take matchLength },
   { s with scanStart := matchStart + matchLength,
            lastAcceptLength := none,
            simulationAlive := false })

/-- The replay `for` loop inside `drain()`: check `simulationAlive`
first, then step.  `elems` is the buffered slice from `scanStart` to
`position` and `i` the absolute index of its first element. -/
def replayDrain {T : Type} (nfa : NFA T) (greedy : Bool)
    (seqLength : Option Nat) : List T → Nat → ScannerState T → ScannerState T
  | [], _, s => s
  | x :: rest, i, s =>
    if s.simulationAlive = false then s
    else replayDrain nfa greedy seqLength rest (i + 1)
      (scannerStep nfa greedy x i seqLength s)

/-- The `while (!this.simulationAlive && this.scanStart < this.position)`
loop of `drain()`, fuel-indexed (each iteration strictly increases
`scanStart`, so fuel `position + 1` suffices). -/
def drainLoop {T : Type} (nfa : NFA T) (greedy : Bool)
    (seqLength : Option Nat) : Nat → ScannerState T →
    List (MatchResult T) × ScannerState T
  | 0, s => ([], s)
  | fuel + 1, s =>
    if s.simulationAlive = false ∧ s.scanStart < s.position then
      let er :=
        if hasPositiveCandidate s.lastAcceptLength then
          let r := emitMatch s
          ([r.1], r.2)
        else (([] : List (MatchResult T)), { s with scanStart := s.scanStart + 1 })
      let s1 := er.2
      if s1.position ≤ s1.scanStart then (er.1, s1)
      else
        let s2 := initSimulation nfa s1.scanStart seqLength s1
        let bufferStart := s2.position - s2.buffer.length
        let elems := (s2.buffer.drop (s2.scanStart - bufferStart)).take
          (s2.position - s2.scanStart)
        let s3 := replayDrain nfa greedy seqLength elems s2.scanStart s2
        let more := drainLoop nfa greedy seqLength fuel s3
        (er.1 ++ more.1, more.2)
    else ([], s)

/-- `drain(seqLength)` from scanner.ts: the drain loop, then the
re-initialisation at `scanStart == position`, then buffer trimming. -/
def drain {T : Type} (nfa : NFA T) (greedy : Bool) (seqLength : Option Nat)
    (s : ScannerState T) : List (MatchResult T) × ScannerState T :=
  let r := drainLoop nfa greedy seqLength (s.position + 1) s
  let s1 := r.2
  let s2 :=
    if s1.simulationAlive = false ∧ s1.scanStart = s1.position then
      initSimulation nfa s1.scanStart seqLength s1
    else s1
  let consumed := s2.scanStart - (s2.position - s2.buffer.length)
  let s3 := if 0 < consumed then { s2 with buffer := s2.buffer.drop consumed }
    else s2
  (r.1, s3)

/-- `push(element)` from scanner.ts. -/
def scannerPush {T : Type} (nfa : NFA T) (greedy : Bool) (element : T)
    (s : ScannerState T) : List (MatchResult T) × ScannerState T :=
  let s1 := { s with buffer := s.buffer ++ [element] }
  let s2 := if s1.simulationAlive then
      scannerStep nfa greedy element s1.position none s1
    else s1
  let s3 := { s2 with position := s2.position + 1 }
  drain nfa greedy none s3

/-- The replay `for` loop inside `end()`: step, then `break` when the
simulation died. -/
def replayEnd {T : Type} (nfa : NFA T) (greedy : Bool)
    (seqLength : Option Nat) : List T → Nat → ScannerState T → ScannerState T
  | [], _, s => s
  | x :: rest, i, s =>
    let s' := scannerStep nfa greedy x i seqLength s
    if s'.simulationAlive = false then s'
    else replayEnd nfa greedy seqLength rest (i + 1) s'

/-- The `while (this.scanStart < totalLength)` loop of `end()`,
fuel-indexed (each iteration strictly increases `scanStart`, so fuel
`totalLength + 1` suffices). -/
def endLoop {T : Type} (nfa : NFA T) (greedy : Bool) (totalLength : Nat) :
    Nat → ScannerState T → List (MatchResult T) × ScannerState T
  | 0, s => ([], s)
  | fuel + 1, s =>
    if s.scanStart < totalLength then
      let s1 := initSimulation nfa s.scanStart (some totalLength) s
      let bufferOffset := s1.scanStart - (s1.position - s1.buffer.length)
      let elems := (s1.buffer.drop bufferOffset).take
        (totalLength - s1.scanStart)
      let s2 := replayEnd nfa greedy (some totalLength) elems s1.scanStart s1
      let s3 :=
        if s2.simulationAlive = true ∧ s2.active ≠ [] then
          let finalActive :=
            epsilonClosure nfa.states s2.active totalLength (some totalLength)
          if nfa.accept ∈ finalActive then
            { s2 with lastAcceptLength := some (totalLength - s2.scanStart) }
          else s2
        else s2
      if hasPositiveCandidate s3.lastAcceptLength then
        let r := emitMatch s3
        let more := endLoop nfa greedy totalLength fuel r.2
        (r.1 :: more.1, more.2)
      else
        let more := endLoop nfa greedy totalLength fuel
          { s3 with scanStart := s3.scanStart + 1 }
        more
    else ([], s)

/-- `end()` from scanner.ts: the pending in-flight end-anchor check, the
pending emit (or single advance), then the bounded restart-and-replay
loop over every remaining `scanStart`. -/
def scannerEnd {T : Type} (nfa : NFA T) (greedy : Bool)
    (s : ScannerState T) : List (MatchResult T) × ScannerState T :=
  let totalLength := s.position
  let s1 :=
    if s.simulationAlive = true ∧ s.active ≠ [] then
      let finalActive :=
        epsilonClosure nfa.states s.active s.position (some totalLength)
      if nfa.accept ∈ finalActive then
        { s with lastAcceptLength := some (s.position - s.scanStart) }
      else s
    else s
  let fr :=
    if hasPositiveCandidate s1.lastAcceptLength then
      let r := emitMatch s1
      ([r.1], r.2)
    else if s1.scanStart < totalLength then
      (([] : List (MatchResult T)), { s1 with scanStart := s1.scanStart + 1 })
    else ([], s1)
  let rest := endLoop nfa greedy totalLength (totalLength + 1) fr.2
  (fr.1 ++ rest.1, rest.2)

/-- The `Scanner` constructor: zeroed fields, then
`initSimulation(0, Infinity)`. -/
def scannerNew {T : Type} (nfa : NFA T) : ScannerState T :=
  initSimulation nfa 0 none ⟨0, 0, [], [], none, true⟩

/-- Feed a whole sequence: `push` every element in order, then `end()`,
concatenating all emitted results (the `collectAll` harness of
scanner.test.ts and the streaming side of `Matcher.findAll`). -/
def scannerRunAux {T : Type} (nfa : NFA T) (greedy : Bool) :
    List T → ScannerState T → List (MatchResult T)
  | [], s => (scannerEnd nfa greedy s).1
  | x :: rest, s =>
    let r := scannerPush nfa greedy x s
    r.1 ++ scannerRunAux nfa greedy rest r.2

/-- All results of streaming a sequence through a fresh scanner. -/
def scannerCollect {T : Type} (nfa : NFA T) (greedy : Bool)
    (sequence : List T) : List (MatchResult T) :=
  scannerRunAux nfa greedy sequence (scannerNew nfa)

/-! ## The pattern builder entry point relevant to the claims
(pattern.ts `Pattern.oneOf`) -/

/-- `toNode` from `Pattern.oneOf`: an alternative is either a bare
predicate or an already-built pattern (here: its tree). -/
def toNode {T : Type} : Predicate T ⊕ PatternNode T → PatternNode T
  | .inl fn => .predicate fn
  | .inr p => p

/-- `Pattern.oneOf(...alternatives)` from pattern.ts: throws on an empty
alternative list (modelled by `Except.error` carrying the thrown
message), otherwise left-folds the alternatives into nested
alternations. -/
def oneOf {T : Type} (alternatives : List (Predicate T ⊕ PatternNode T)) :
    Except String (PatternNode T) :=
  match alternatives with
  | [] => .error "Pattern.oneOf() requires at least one alternative"
  | a :: rest =>
    .ok (rest.foldl (fun node alt => .alternation node (toNode alt)) (toNode a))

/-! ## Specification-side definitions used to state the properties -/

/-- A state id survives the arena lookup and its anchor guard at
`(position, seqLength)`. -/
def okState {T : Type} (states : List (NFAState T)) (position : Nat)
    (seqLength : Option Nat) (s : Nat) : Prop :=
  ∃ st, states[s]? = some st ∧ anchorPass st position seqLength = true

/-- Reachability through non-pruned states only: the defining property of
the epsilon closure.  A state is in the closure iff it is a surviving
seed or a surviving epsilon successor of a state already in the closure;
in particular a pruned state blocks everything reachable only through
it. -/
inductive InClosure {T : Type} (states : List (NFAState T)) (position : Nat)
    (seqLength : Option Nat) (seeds : List Nat) : Nat → Prop where
  | seed {s : Nat} : s ∈ seeds → okState states position seqLength s →
      InClosure states position seqLength seeds s
  | step {t s : Nat} {st : NFAState T} :
      InClosure states position seqLength seeds t → states[t]? = some st →
      s ∈ st.epsilons → okState states position seqLength s →
      InClosure states position seqLength seeds s

/-- Work still ahead of the closure loop: states of the arena not yet in
the visited set. -/
def unvisitedCount {T : Type} (states : List (NFAState T))
    (result : List Nat) : Nat :=
  ((List.range states.length).diff result).length

/-- Single decreasing measure of a closure-loop configuration. -/
def closureMeasure {T : Type} (states : List (NFAState T))
    (c : List Nat × List Nat) : Nat :=
  unvisitedCount states c.2 * (epsSum states + 1) + c.1.length

/-- Reference depth-first traversal: the fuel-free twin of the
`epsilonClosure` loop.  The stack's head is its top, so the traversal
expands the last seed first and, within a state, the last-listed epsilon
edge first, recording each surviving state once at first discovery. -/
def dfsClosure {T : Type} (states : List (NFAState T)) (position : Nat)
    (seqLength : Option Nat) : List Nat → List Nat → List Nat
  | [], result => result
  | s :: rest, result =>
    if s ∈ result then dfsClosure states position seqLength rest result
    else
      match h : states[s]? with
      | none => dfsClosure states position seqLength rest result
      | some st =>
        if anchorPass st position seqLength then
          dfsClosure states position seqLength
            (((st.epsilons.filter (fun t => ¬ t ∈ result ++ [s])).reverse) ++ rest)
            (result ++ [s])
        else dfsClosure states position seqLength rest result
termination_by stack result => (unvisitedCount states result, stack.length)
decreasing_by
  · apply Prod.Lex.right
    simp
  · apply Prod.Lex.right
    simp
  · apply Prod.Lex.left
    have hsN : s < states.length := by
      by_contra hge
      rw [List.getElem?_eq_none (Nat.le_of_not_lt hge)] at h
      exact Option.noConfusion h
    have hmem : s ∈ (List.range states.length).diff result :=
      List.mem_diff_of_mem (List.mem_range.mpr hsN) (by assumption)
    have hdiff : (List.range states.length).diff (result ++ [s]) =
        ((List.range states.length).diff result).erase s := by
      rw [List.diff_append, List.diff_cons, List.diff_nil]
    unfold unvisitedCount
    rw [hdiff, List.length_erase_of_mem hmem]
    exact Nat.sub_lt (List.length_pos.mpr (List.ne_nil_of_mem hmem)) Nat.one_pos
  · apply Prod.Lex.right
    simp

/-- Loop invariant of the `epsilonClosure` traversal: every visited state
is genuinely reachable, every stacked state is a seed or an epsilon
successor of a visited state, every surviving epsilon successor of a
visited state is either visited or still stacked, and no state is
visited twice. -/
def ClosureInv {T : Type} (states : List (NFAState T)) (position : Nat)
    (seqLength : Option Nat) (seeds : List Nat)
    (c : List Nat × List Nat) : Prop :=
  (∀ s ∈ c.2, InClosure states position seqLength seeds s) ∧
  (∀ s ∈ c.1, s ∈ seeds ∨
    ∃ t st, t ∈ c.2 ∧ states[t]? = some st ∧ s ∈ st.epsilons) ∧
  (∀ t ∈ c.2, ∀ st, states[t]? = some st → ∀ s ∈ st.epsilons,
    okState states position seqLength s → s ∈ c.2 ∨ s ∈ c.1) ∧
  c.2.Nodup

/-- The candidate lengths the simulation can record from a given offset,
in increasing order: `0` when the accept state is already in the initial
closure, then `k + 1` for every index at which the accept state is in
the active set after consuming `k + 1` elements. -/
def candLoop {T : Type} (nfa : NFA T) (len : Nat) (offset : Nat) :
    List T → Nat → List Nat → List Nat
  | [], _, _ => []
  | x :: rest, k, active =>
    let active' := epsilonClosure nfa.states (stepActive nfa.states active x)
      (offset + k + 1) (some len)
    if nfa.accept ∈ active' then
      (k + 1) :: candLoop nfa len offset rest (k + 1) active'
    else candLoop nfa len offset rest (k + 1) active'

/-- All candidate match lengths at `offset`, in increasing order. -/
def simCands {T : Type} (nfa : NFA T) (sequence : List T) (offset : Nat) :
    List Nat :=
  let active := epsilonClosure nfa.states [nfa.start] offset
    (some sequence.length)
  (if nfa.accept ∈ active then [0] else []) ++
    candLoop nfa sequence.length offset (sequence.drop offset) 0 active

/-- Two pattern trees that are identical except possibly in the `greedy`
flags of their quantifiers. -/
inductive SameShape {T : Type} : PatternNode T → PatternNode T → Prop where
  | predicate (fn : Predicate T) : SameShape (.predicate fn) (.predicate fn)
  | any : SameShape .any .any
  | anchor (p : AnchorPos) : SameShape (.anchor p) (.anchor p)
  | sequence {cs₁ cs₂ : List (PatternNode T)} :
      List.Forall₂ SameShape cs₁ cs₂ →
      SameShape (.sequence cs₁) (.sequence cs₂)
  | quantifier {c₁ c₂ : PatternNode T} (min : Nat) (max : Option Nat)
      (g₁ g₂ : Bool) : SameShape c₁ c₂ →
      SameShape (.quantifier c₁ min max g₁) (.quantifier c₂ min max g₂)
  | alternation {l₁ l₂ r₁ r₂ : PatternNode T} : SameShape l₁ l₂ →
      SameShape r₁ r₂ → SameShape (.alternation l₁ r₁) (.alternation l₂ r₂)

/-- Two pattern trees differing only in the greedy flag of exactly one
quantifier: the first has that flag `true`, the second `false`. -/
inductive FlipAt {T : Type} : PatternNode T → PatternNode T → Prop where
  | here (c : PatternNode T) (min : Nat) (max : Option Nat) :
      FlipAt (.quantifier c min max true) (.quantifier c min max false)
  | inSeq {a b : PatternNode T} (pre post : List (PatternNode T)) :
      FlipAt a b →
      FlipAt (.sequence (pre ++ a :: post)) (.sequence (pre ++ b :: post))
  | inQuant {a b : PatternNode T} (min : Nat) (max : Option Nat) (g : Bool) :
      FlipAt a b → FlipAt (.quantifier a min max g) (.quantifier b min max g)
  | inAltL {a b r : PatternNode T} : FlipAt a b →
      FlipAt (.alternation a r) (.alternation b r)
  | inAltR {a b l : PatternNode T} : FlipAt a b →
      FlipAt (.alternation l a) (.alternation l b)

/-- Relation between two NFA states that are equal up to the order of
their epsilon edges. -/
def StateRel {T : Type} (st₁ st₂ : NFAState T) : Prop :=
  st₁.epsilons.Perm st₂.epsilons ∧ st₁.transitions = st₂.transitions ∧
    st₁.anchorCheck = st₂.anchorCheck

mutual
/-- Size of a pattern tree (for induction over the nested inductive). -/
def sizeP {T : Type} : PatternNode T → Nat
  | .predicate _ => 1
  | .any => 1
  | .anchor _ => 1
  | .sequence children => 1 + sizePL children
  | .quantifier child _ _ _ => 1 + sizeP child
  | .alternation left right => 1 + sizeP left + sizeP right
/-- Total size of a list of pattern trees. -/
def sizePL {T : Type} : List (PatternNode T) → Nat
  | [] => 0
  | c :: cs => sizeP c + sizePL cs
end

/-! ## Concrete instances used by counterexamples and witnesses -/

/-- `isEven` from test-predicates.ts. -/
def isEven : Nat → Bool := fun n => n % 2 == 0

/-- Pattern of the streaming Scenario C: "even element anchored at end"
(`Pattern.where(isEven).atEnd()`), i.e. a sequence of the predicate and
an `end` anchor. -/
def tEnd : PatternNode Nat := .sequence [.predicate isEven, .anchor .stop]

/-- A lazy optional wildcard: `quantifier(any-element, 0, 1, lazy)`
(`Pattern.any().optional(false)`). -/
def tLazyOpt : PatternNode Nat :=
  .quantifier (.predicate fun _ => true) 0 (some 1) false

/-- Greedy repetition `quantifier(any-element, 1, 2, greedy)`. -/
def tRep (greedy : Bool) : PatternNode Nat :=
  .quantifier (.predicate fun _ => true) 1 (some 2) greedy

/-- Two isolated states with no edges and no guards: seed order is the
only thing the closure can reflect on this arena. -/
def twoIsolated : List (NFAState Nat) := [⟨[], [], none⟩, ⟨[], [], none⟩]

/-- A single-predicate NFA (`compile(predicate isEven)`). -/
def gEven : NFA Nat := compile (.predicate isEven)

/-! # Theorems -/

/-! ## Validation of the embedding against the repository's test suite -/

example :
    findAll (compile (.quantifier (.predicate isEven) 1 none true))
      [2, 4, 6, 3] true = [⟨0, 2, [2, 4, 6]⟩] := by decide

example :
    findAll (compile (.predicate isEven)) [1, 2, 3, 4, 5, 6] true =
      [⟨1, 1, [2]⟩, ⟨3, 3, [4]⟩, ⟨5, 5, [6]⟩] := by decide

example :
    scannerCollect (compile tEnd) true [1, 3, 4] = [⟨2, 2, [4]⟩] ∧
    findAll (compile tEnd) [1, 3, 4] true = [⟨2, 2, [4]⟩] := by decide

/-! ## Batch-engine basic facts -/

theorem simulateLoop_some_le {T : Type} (nfa : NFA T) (len : Nat)
    (greedy : Bool) (off : Nat) :
    ∀ (xs : List T) (k : Nat) (active : List Nat) (last : Option Nat),
      (∀ v, last = some v → v ≤ k) →
      ∀ v, simulateLoop nfa len greedy off xs k active last = some v →
        v ≤ k + xs.length := by
  intro xs
  induction xs with
  | nil =>
    intro k active last hlast v hv
    simp only [simulateLoop] at hv
    simpa using hlast v hv
  | cons x rest ih =>
    intro k active last hlast v hv
    simp only [simulateLoop] at hv
    generalize hA : epsilonClosure nfa.states (stepActive nfa.states active x)
      (off + k + 1) (some len) = A at hv
    have hlast' : ∀ w,
        (if nfa.accept ∈ A then some (k + 1) else last) = some w →
          w ≤ k + 1 := by
      intro w hw
      split at hw
      · injection hw with h
        omega
      · exact le_trans (hlast w hw) (Nat.le_succ k)
    split at hv
    · have := hlast v hv
      simp only [List.length_cons]
      omega
    · split at hv
      · have := hlast' v hv
        simp only [List.length_cons]
        omega
      · have := ih (k + 1) A _ hlast' v hv
        simp only [List.length_cons]
        omega

theorem simulate_length_le {T : Type} (nfa : NFA T) (sequence : List T)
    (offset : Nat) (greedy : Bool) :
    (simulate nfa sequence offset greedy).length ≤ sequence.length - offset := by
  have hmain : ∀ last0 : Option Nat, (∀ w, last0 = some w → w ≤ 0) →
      (simulateLoop nfa sequence.length greedy offset (sequence.drop offset) 0
        (epsilonClosure nfa.states [nfa.start] offset (some sequence.length))
        last0).getD 0 ≤ sequence.length - offset := by
    intro last0 hlast
    generalize hf : simulateLoop nfa sequence.length greedy offset
      (sequence.drop offset) 0
      (epsilonClosure nfa.states [nfa.start] offset (some sequence.length))
      last0 = f
    cases f with
    | none => simp
    | some v =>
      have := simulateLoop_some_le nfa sequence.length greedy offset
        (sequence.drop offset) 0 _ _ hlast v hf
      simpa using this
  by_cases hmem : nfa.accept ∈ epsilonClosure nfa.states [nfa.start] offset
      (some sequence.length)
  · by_cases hg : greedy = false
    · simp [simulate, hmem, hg]
    · have h := hmain (some 0) (by
        intro w hw
        injection hw with h
        omega)
      simpa [simulate, hmem, hg] using h
  · have h := hmain none (fun w hw => Option.noConfusion hw)
    simpa [simulate, hmem] using h

theorem findAllAux_mem {T : Type} (nfa : NFA T) (greedy : Bool)
    (sequence : List T) :
    ∀ (fuel pos : Nat) (r : MatchResult T),
      r ∈ findAllAux nfa greedy sequence fuel pos →
      pos ≤ r.start ∧ ∃ l, 0 < l ∧ l ≤ sequence.length - r.start ∧
        r.stop = r.start + l - 1 ∧ r.data = (sequence.drop r.start).take l := by
  intro fuel
  induction fuel with
  | zero =>
    intro pos r hr
    simp [findAllAux] at hr
  | succ fuel ih =>
    intro pos r hr
    simp only [findAllAux] at hr
    split at hr
    · split at hr
      · rcases List.mem_cons.mp hr with rfl | htail
        · refine ⟨le_refl _, (simulate nfa sequence pos greedy).length,
            ?_, ?_, rfl, rfl⟩
          · rename_i hm
            exact hm.2
          · exact simulate_length_le nfa sequence pos greedy
        · have h := ih _ _ htail
          exact ⟨by omega, h.2⟩
      · have h := ih _ _ hr
        exact ⟨by omega, h.2⟩
    · simp at hr

/-- C2: every `findAll` result `r` satisfies `r.end ≥ r.start`,
`r.data.length = r.end - r.start + 1 ≥ 1`, and `r.data` is exactly the
contiguous slice `S[r.start .. r.end]` of the input; in particular no
zero-length match is ever returned. -/
theorem findAll_result_invariants :
    ∀ (T : Type) (nfa : NFA T) (sequence : List T) (greedy : Bool)
      (r : MatchResult T), r ∈ findAll nfa sequence greedy →
      r.start ≤ r.stop ∧ r.data.length = r.stop - r.start + 1 ∧
        1 ≤ r.data.length ∧
        r.data = (sequence.drop r.start).take (r.stop - r.start + 1) := by
  intro T nfa sequence greedy r hr
  obtain ⟨-, l, hl0, hlle, hstop, hdata⟩ :=
    findAllAux_mem nfa greedy sequence sequence.length 0 r hr
  have hlen : r.data.length = l := by
    rw [hdata, List.length_take, List.length_drop]
    omega
  have hse : r.stop - r.start + 1 = l := by omega
  refine ⟨by omega, by omega, by omega, ?_⟩
  rw [hse, hdata]

theorem findAll_result_invariants_witness :
    (⟨1, 1, [2]⟩ : MatchResult Nat) ∈ findAll gEven [1, 2] true ∧
      ((1 : Nat) ≤ 1 ∧ ([2] : List Nat).length = 1 - 1 + 1 ∧
        1 ≤ ([2] : List Nat).length ∧
        ([2] : List Nat) = (([1, 2] : List Nat).drop 1).take (1 - 1 + 1)) :=
  ⟨by decide,
    findAll_result_invariants Nat gEven [1, 2] true ⟨1, 1, [2]⟩ (by decide)⟩

theorem findAllAux_chain {T : Type} (nfa : NFA T) (greedy : Bool)
    (sequence : List T) :
    ∀ (fuel pos : Nat),
      List.Chain' (fun a b => a.stop < b.start ∧ a.start < b.start)
        (findAllAux nfa greedy sequence fuel pos) := by
  intro fuel
  induction fuel with
  | zero =>
    intro pos
    simp [findAllAux]
  | succ fuel ih =>
    intro pos
    simp only [findAllAux]
    split
    · split
      · rw [List.chain'_cons']
        refine ⟨?_, ih _⟩
        intro y hy
        have hmem : y ∈ findAllAux nfa greedy sequence fuel
            (pos + (simulate nfa sequence pos greedy).length) :=
          List.mem_of_mem_head? hy
        have h1 := (findAllAux_mem nfa greedy sequence _ _ _ hmem).1
        rename_i hm
        have hl := hm.2
        constructor
        · simp only [MatchResult.stop]
          omega
        · simp only [MatchResult.start]
          omega
      · exact ih _
    · simp

/-- C3: the results of `findAll` are strictly ordered by start index and
never overlap (`result[i].end < result[i+1].start` for adjacent pairs);
after emitting a positive-length candidate the scan resumes at
`start + length`, and after a failed or zero-length-only attempt the
scan offset advances by exactly one. -/
theorem findAll_ordered_nonoverlapping :
    ∀ (T : Type) (nfa : NFA T) (sequence : List T) (greedy : Bool),
      List.Chain' (fun a b => a.stop < b.start ∧ a.start < b.start)
        (findAll nfa sequence greedy)
      ∧ (∀ fuel pos, pos < sequence.length →
          (simulate nfa sequence pos greedy).matched = true →
          0 < (simulate nfa sequence pos greedy).length →
          findAllAux nfa greedy sequence (fuel + 1) pos =
            { start := pos,
              stop := pos + (simulate nfa sequence pos greedy).length - 1,
              data := (sequence.drop pos).take
                (simulate nfa sequence pos greedy).length } ::
              findAllAux nfa greedy sequence fuel
                (pos + (simulate nfa sequence pos greedy).length))
      ∧ (∀ fuel pos, pos < sequence.length →
          ¬((simulate nfa sequence pos greedy).matched = true ∧
            0 < (simulate nfa sequence pos greedy).length) →
          findAllAux nfa greedy sequence (fuel + 1) pos =
            findAllAux nfa greedy sequence fuel (pos + 1)) := by
  intro T nfa sequence greedy
  refine ⟨findAllAux_chain nfa greedy sequence sequence.length 0, ?_, ?_⟩
  · intro fuel pos hpos hm hl
    simp only [findAllAux]
    rw [if_pos hpos, if_pos ⟨hm, hl⟩]
  · intro fuel pos hpos hnot
    simp only [findAllAux]
    rw [if_pos hpos, if_neg hnot]

theorem findAll_ordered_nonoverlapping_witness :
    List.Chain' (fun a b => a.stop < b.start ∧ a.start < b.start)
      (findAll gEven [2, 3, 4] true)
    ∧ ((0 : Nat) < ([2, 3] : List Nat).length ∧
        (simulate gEven [2, 3] 0 true).matched = true ∧
        0 < (simulate gEven [2, 3] 0 true).length ∧
        findAllAux gEven true [2, 3] 2 0 =
          { start := 0, stop := 0 + (simulate gEven [2, 3] 0 true).length - 1,
            data := (([2, 3] : List Nat).drop 0).take
              (simulate gEven [2, 3] 0 true).length } ::
            findAllAux gEven true [2, 3] 1
              (0 + (simulate gEven [2, 3] 0 true).length))
    ∧ ((0 : Nat) < ([1, 2] : List Nat).length ∧
        ¬((simulate gEven [1, 2] 0 true).matched = true ∧
          0 < (simulate gEven [1, 2] 0 true).length) ∧
        findAllAux gEven true [1, 2] 2 0 = findAllAux gEven true [1, 2] 1 1) :=
  ⟨(findAll_ordered_nonoverlapping Nat gEven [2, 3, 4] true).1,
    ⟨by decide, by decide, by decide,
      (findAll_ordered_nonoverlapping Nat gEven [2, 3] true).2.1 1 0
        (by decide) (by decide) (by decide)⟩,
    ⟨by decide, by decide,
      (findAll_ordered_nonoverlapping Nat gEven [1, 2] true).2.2 1 0
        (by decide) (by decide)⟩⟩

/-- C10: `Pattern.oneOf` with zero alternatives reports an error
synchronously at construction (modelled by `Except.error` with the
thrown message), and with any non-empty alternative list it returns
normally.  All other operations of the embedding (`compile`, `simulate`,
`findAll`, `findFirst`, `test`) are total Lean functions, so they cannot
fail on any well-formed input. -/
theorem oneOf_construction_totality :
    ∀ (T : Type) (alternatives : List (Predicate T ⊕ PatternNode T)),
      (alternatives = [] →
        oneOf alternatives =
          .error "Pattern.oneOf() requires at least one alternative")
      ∧ (alternatives ≠ [] → ∃ node, oneOf alternatives = .ok node) := by
  intro T alts
  constructor
  · rintro rfl
    rfl
  · intro h
    cases alts with
    | nil => exact absurd rfl h
    | cons a rest => exact ⟨_, rfl⟩

theorem oneOf_construction_totality_witness :
    (oneOf (T := Nat) [] =
      .error "Pattern.oneOf() requires at least one alternative")
    ∧ ∃ node, oneOf [Sum.inl isEven] = .ok node :=
  ⟨(oneOf_construction_totality Nat []).1 rfl,
    (oneOf_construction_totality Nat [Sum.inl isEven]).2
      (List.cons_ne_nil _ _)⟩

/-! ## Epsilon closure: termination, characterization, discovery order -/

theorem closureStep_visited {T : Type} (states : List (NFAState T))
    (position : Nat) (seqLength : Option Nat) {s : Nat}
    (rest result : List Nat) (hs : s ∈ result) :
    closureStep states position seqLength (s :: rest, result) =
      (rest, result) := by
  simp [closureStep, hs]

theorem closureStep_missing {T : Type} (states : List (NFAState T))
    (position : Nat) (seqLength : Option Nat) {s : Nat}
    (rest result : List Nat) (hs : s ∉ result) (hst : states[s]? = none) :
    closureStep states position seqLength (s :: rest, result) =
      (rest, result) := by
  simp [closureStep, hs, hst]

theorem closureStep_pruned {T : Type} (states : List (NFAState T))
    (position : Nat) (seqLength : Option Nat) {s : Nat} {st : NFAState T}
    (rest result : List Nat) (hs : s ∉ result) (hst : states[s]? = some st)
    (hb : anchorPass st position seqLength = false) :
    closureStep states position seqLength (s :: rest, result) =
      (rest, result) := by
  simp [closureStep, hs, hst, hb]

theorem closureStep_add {T : Type} (states : List (NFAState T))
    (position : Nat) (seqLength : Option Nat) {s : Nat} {st : NFAState T}
    (rest result : List Nat) (hs : s ∉ result) (hst : states[s]? = some st)
    (hb : anchorPass st position seqLength = true) :
    closureStep states position seqLength (s :: rest, result) =
      ((st.epsilons.filter (fun t => ¬ t ∈ result ++ [s])).reverse ++ rest,
        result ++ [s]) := by
  simp [closureStep, hs, hst, hb]

theorem unvisitedCount_append {T : Type} (states : List (NFAState T))
    {result : List Nat} {s : Nat} (hsN : s < states.length)
    (hs : s ∉ result) :
    unvisitedCount states (result ++ [s]) + 1 = unvisitedCount states result := by
  have hmem : s ∈ (List.range states.length).diff result :=
    List.mem_diff_of_mem (List.mem_range.mpr hsN) hs
  unfold unvisitedCount
  rw [List.diff_append, List.diff_cons, List.diff_nil,
    List.length_erase_of_mem hmem]
  have : 0 < ((List.range states.length).diff result).length :=
    List.length_pos.mpr (List.ne_nil_of_mem hmem)
  omega

theorem getElem?_some_lt {T : Type} {states : List (NFAState T)} {s : Nat}
    {st : NFAState T} (hst : states[s]? = some st) : s < states.length := by
  by_contra hge
  rw [List.getElem?_eq_none (Nat.le_of_not_lt hge)] at hst
  exact Option.noConfusion hst

theorem eps_length_le_epsSum {T : Type} {states : List (NFAState T)} {s : Nat}
    {st : NFAState T} (hst : states[s]? = some st) :
    st.epsilons.length ≤ epsSum states := by
  have hmem : st ∈ states := List.getElem?_mem hst
  have hmap : st.epsilons.length ∈ states.map (fun x => x.epsilons.length) :=
    List.mem_map_of_mem _ hmem
  exact List.single_le_sum (fun x _ => Nat.zero_le x) _ hmap

theorem closureStep_measure_lt {T : Type} (states : List (NFAState T))
    (position : Nat) (seqLength : Option Nat) :
    ∀ c : List Nat × List Nat, c.1 ≠ [] →
      closureMeasure states (closureStep states position seqLength c) <
        closureMeasure states c := by
  rintro ⟨stack, result⟩ hne
  cases stack with
  | nil => exact absurd rfl hne
  | cons s rest =>
    by_cases hs : s ∈ result
    · rw [closureStep_visited states position seqLength rest result hs]
      simp [closureMeasure]
    · cases hst : states[s]? with
      | none =>
        rw [closureStep_missing states position seqLength rest result hs hst]
        simp [closureMeasure]
      | some st =>
        cases hb : anchorPass st position seqLength with
        | false =>
          rw [closureStep_pruned states position seqLength rest result hs hst hb]
          simp [closureMeasure]
        | true =>
          rw [closureStep_add states position seqLength rest result hs hst hb]
          have hsN : s < states.length := getElem?_some_lt hst
          have hcount := unvisitedCount_append states hsN hs
          have heps := eps_length_le_epsSum hst
          have hfLen :
              ((st.epsilons.filter (fun t => ¬ t ∈ result ++ [s])).reverse).length
                ≤ epsSum states := by
            rw [List.length_reverse]
            exact le_trans (List.length_filter_le _ _) heps
          simp only [closureMeasure, List.length_append, List.length_cons]
          rw [← hcount, Nat.succ_mul]
          omega

theorem closureRun_stack_empty {T : Type} (states : List (NFAState T))
    (position : Nat) (seqLength : Option Nat) :
    ∀ (fuel : Nat) (c : List Nat × List Nat),
      closureMeasure states c ≤ fuel →
      (closureRun states position seqLength fuel c).1 = [] := by
  intro fuel
  induction fuel with
  | zero =>
    intro c hc
    simp only [closureRun]
    have hlen : c.1.length = 0 := by
      simp only [closureMeasure] at hc
      omega
    exact List.length_eq_zero.mp hlen
  | succ fuel ih =>
    intro c hc
    simp only [closureRun]
    split
    · next h => exact h
    · next h =>
      apply ih
      have := closureStep_measure_lt states position seqLength c h
      omega

theorem closureStep_result_prefix {T : Type} (states : List (NFAState T))
    (position : Nat) (seqLength : Option Nat) :
    ∀ c : List Nat × List Nat, ∃ mid,
      (closureStep states position seqLength c).2 = c.2 ++ mid := by
  rintro ⟨stack, result⟩
  cases stack with
  | nil => exact ⟨[], by simp [closureStep]⟩
  | cons s rest =>
    by_cases hs : s ∈ result
    · exact ⟨[], by rw [closureStep_visited states position seqLength rest result hs]; simp⟩
    · cases hst : states[s]? with
      | none =>
        exact ⟨[], by rw [closureStep_missing states position seqLength rest result hs hst]; simp⟩
      | some st =>
        cases hb : anchorPass st position seqLength with
        | false =>
          exact ⟨[], by rw [closureStep_pruned states position seqLength rest result hs hst hb]; simp⟩
        | true =>
          exact ⟨[s], by rw [closureStep_add states position seqLength rest result hs hst hb]⟩

theorem closureRun_result_prefix {T : Type} (states : List (NFAState T))
    (position : Nat) (seqLength : Option Nat) :
    ∀ (fuel : Nat) (c : List Nat × List Nat), ∃ suffix,
      (closureRun states position seqLength fuel c).2 = c.2 ++ suffix := by
  intro fuel
  induction fuel with
  | zero =>
    intro c
    exact ⟨[], by simp [closureRun]⟩
  | succ fuel ih =>
    intro c
    simp only [closureRun]
    split
    · exact ⟨[], by simp⟩
    · obtain ⟨mid, hmid⟩ :=
        closureStep_result_prefix states position seqLength c
      obtain ⟨suf, hsuf⟩ := ih (closureStep states position seqLength c)
      exact ⟨mid ++ suf, by rw [hsuf, hmid, List.append_assoc]⟩

theorem closureStep_stack_tail {T : Type} (states : List (NFAState T))
    (position : Nat) (seqLength : Option Nat) (t : Nat)
    (rest result : List Nat) :
    ∀ s ∈ rest, s ∈ (closureStep states position seqLength (t :: rest, result)).1 := by
  intro s hsrest
  by_cases ht : t ∈ result
  · rw [closureStep_visited states position seqLength rest result ht]
    exact hsrest
  · cases hst : states[t]? with
    | none =>
      rw [closureStep_missing states position seqLength rest result ht hst]
      exact hsrest
    | some st =>
      cases hb : anchorPass st position seqLength with
      | false =>
        rw [closureStep_pruned states position seqLength rest result ht hst hb]
        exact hsrest
      | true =>
        rw [closureStep_add states position seqLength rest result ht hst hb]
        exact List.mem_append_right _ hsrest

theorem closureRun_complete {T : Type} (states : List (NFAState T))
    (position : Nat) (seqLength : Option Nat) :
    ∀ (fuel : Nat) (c : List Nat × List Nat),
      closureMeasure states c ≤ fuel →
      ∀ s ∈ c.1, okState states position seqLength s →
        s ∈ (closureRun states position seqLength fuel c).2 := by
  intro fuel
  induction fuel with
  | zero =>
    intro c hc s hsstack hok
    exfalso
    have hlen : c.1.length = 0 := by
      simp only [closureMeasure] at hc
      omega
    rw [List.length_eq_zero.mp hlen] at hsstack
    exact List.not_mem_nil s hsstack
  | succ fuel ih =>
    intro c hc s hsstack hok
    simp only [closureRun]
    split
    · next hempty =>
      rw [hempty] at hsstack
      exact absurd hsstack (List.not_mem_nil s)
    · next hne =>
      have hmeas : closureMeasure states (closureStep states position seqLength c) ≤ fuel := by
        have := closureStep_measure_lt states position seqLength c hne
        omega
      rcases c with ⟨stack, result⟩
      cases stack with
      | nil => exact absurd rfl hne
      | cons t rest =>
        rcases List.mem_cons.mp hsstack with rfl | hsrest
        · by_cases hsres : s ∈ result
          · obtain ⟨suf, hsuf⟩ := closureRun_result_prefix states position
              seqLength fuel (closureStep states position seqLength (s :: rest, result))
            rw [hsuf]
            obtain ⟨mid, hmid⟩ := closureStep_result_prefix states position
              seqLength (s :: rest, result)
            rw [hmid]
            exact List.mem_append_left _ (List.mem_append_left _ hsres)
          · obtain ⟨st, hstl, hpass⟩ := hok
            obtain ⟨suf, hsuf⟩ := closureRun_result_prefix states position
              seqLength fuel (closureStep states position seqLength (s :: rest, result))
            rw [hsuf, closureStep_add states position seqLength rest result hsres hstl hpass]
            exact List.mem_append_left _ (List.mem_append_right _ (by simp))
        · exact ih _ hmeas s
            (closureStep_stack_tail states position seqLength t rest result s hsrest) hok

theorem closureStep_inv {T : Type} (states : List (NFAState T))
    (position : Nat) (seqLength : Option Nat) (seeds : List Nat) :
    ∀ c, ClosureInv states position seqLength seeds c →
      ClosureInv states position seqLength seeds
        (closureStep states position seqLength c) := by
  rintro ⟨stack, result⟩ ⟨h1, h2, h3, h4⟩
  cases stack with
  | nil => exact ⟨h1, h2, h3, h4⟩
  | cons s rest =>
    by_cases hs : s ∈ result
    · rw [closureStep_visited states position seqLength rest result hs]
      refine ⟨h1, fun u hu => h2 u (List.mem_cons_of_mem _ hu), ?_, h4⟩
      intro t ht st hst u humem hok
      rcases h3 t ht st hst u humem hok with hin | hstk
      · exact Or.inl hin
      · rcases List.mem_cons.mp hstk with rfl | h
        · exact Or.inl hs
        · exact Or.inr h
    · cases hst : states[s]? with
      | none =>
        rw [closureStep_missing states position seqLength rest result hs hst]
        refine ⟨h1, fun u hu => h2 u (List.mem_cons_of_mem _ hu), ?_, h4⟩
        intro t ht st' hst' u humem hok
        rcases h3 t ht st' hst' u humem hok with hin | hstk
        · exact Or.inl hin
        · rcases List.mem_cons.mp hstk with rfl | h
          · obtain ⟨st'', hlook, -⟩ := hok
            rw [hst] at hlook
            exact Option.noConfusion hlook
          · exact Or.inr h
      | some st =>
        cases hb : anchorPass st position seqLength with
        | false =>
          rw [closureStep_pruned states position seqLength rest result hs hst hb]
          refine ⟨h1, fun u hu => h2 u (List.mem_cons_of_mem _ hu), ?_, h4⟩
          intro t ht st' hst' u humem hok
          rcases h3 t ht st' hst' u humem hok with hin | hstk
          · exact Or.inl hin
          · rcases List.mem_cons.mp hstk with rfl | h
            · obtain ⟨st'', hlook, hpass⟩ := hok
              rw [hst] at hlook
              injection hlook with he
              rw [← he, hb] at hpass
              exact absurd hpass (by simp)
            · exact Or.inr h
        | true =>
          rw [closureStep_add states position seqLength rest result hs hst hb]
          have hokS : okState states position seqLength s := ⟨st, hst, hb⟩
          have hInS : InClosure states position seqLength seeds s := by
            rcases h2 s (List.mem_cons_self s rest) with hseed |
              ⟨t, st', ht, hlook, hmem⟩
            · exact InClosure.seed hseed hokS
            · exact InClosure.step (h1 t ht) hlook hmem hokS
          refine ⟨?_, ?_, ?_, ?_⟩
          · intro u hu
            rcases List.mem_append.mp hu with h | h
            · exact h1 u h
            · obtain rfl := List.mem_singleton.mp h
              exact hInS
          · intro u hu
            rcases List.mem_append.mp hu with h | h
            · refine Or.inr ⟨s, st, by simp, hst, ?_⟩
              have hfil := List.mem_reverse.mp h
              exact (List.mem_filter.mp hfil).1
            · rcases h2 u (List.mem_cons_of_mem _ h) with hseed |
                ⟨t, st', ht, hlook, hmem⟩
              · exact Or.inl hseed
              · exact Or.inr ⟨t, st', List.mem_append_left _ ht, hlook, hmem⟩
          · intro t ht st' hst' u humem hok
            rcases List.mem_append.mp ht with htin | hts
            · rcases h3 t htin st' hst' u humem hok with hin | hstk
              · exact Or.inl (List.mem_append_left _ hin)
              · rcases List.mem_cons.mp hstk with rfl | h
                · exact Or.inl (by simp)
                · exact Or.inr (List.mem_append_right _ h)
            · obtain rfl := List.mem_singleton.mp hts
              rw [hst] at hst'
              injection hst' with he
              subst he
              by_cases hu2 : u ∈ result ++ [t]
              · exact Or.inl hu2
              · refine Or.inr (List.mem_append_left _ ?_)
                rw [List.mem_reverse, List.mem_filter]
                exact ⟨humem, by simpa using hu2⟩
          · exact h4.append (List.nodup_singleton s)
              (List.disjoint_singleton.mpr hs)

theorem closureRun_inv {T : Type} (states : List (NFAState T))
    (position : Nat) (seqLength : Option Nat) (seeds : List Nat) :
    ∀ (fuel : Nat) (c : List Nat × List Nat),
      ClosureInv states position seqLength seeds c →
      ClosureInv states position seqLength seeds
        (closureRun states position seqLength fuel c) := by
  intro fuel
  induction fuel with
  | zero =>
    intro c h
    simpa only [closureRun] using h
  | succ fuel ih =>
    intro c h
    simp only [closureRun]
    split
    · exact h
    · exact ih _ (closureStep_inv states position seqLength seeds c h)

theorem closureInv_init {T : Type} (states : List (NFAState T))
    (position : Nat) (seqLength : Option Nat) (seeds : List Nat) :
    ClosureInv states position seqLength seeds (seeds.reverse, []) := by
  refine ⟨by simp, ?_, by simp, List.nodup_nil⟩
  intro u hu
  exact Or.inl (List.mem_reverse.mp hu)

theorem closureMeasure_init_le {T : Type} (states : List (NFAState T))
    (seeds : List Nat) :
    closureMeasure states (seeds.reverse, []) ≤ closureFuel states seeds := by
  simp only [closureMeasure, closureFuel, unvisitedCount, List.diff_nil,
    List.length_reverse, List.length_range]
  omega

theorem mem_epsilonClosure_iff {T : Type} (states : List (NFAState T))
    (seeds : List Nat) (position : Nat) (seqLength : Option Nat) (s : Nat) :
    s ∈ epsilonClosure states seeds position seqLength ↔
      InClosure states position seqLength seeds s := by
  constructor
  · intro hmem
    exact (closureRun_inv states position seqLength seeds
      (closureFuel states seeds) _
      (closureInv_init states position seqLength seeds)).1 s hmem
  · intro hin
    induction hin with
    | seed hseed hok =>
      exact closureRun_complete states position seqLength
        (closureFuel states seeds) (seeds.reverse, [])
        (closureMeasure_init_le states seeds) _
        (by simpa using hseed) hok
    | step ht hlook hmem hok ih =>
      have hfin := closureRun_inv states position seqLength seeds
        (closureFuel states seeds) _
        (closureInv_init states position seqLength seeds)
      have hempty := closureRun_stack_empty states position seqLength
        (closureFuel states seeds) (seeds.reverse, [])
        (closureMeasure_init_le states seeds)
      rcases hfin.2.2.1 _ ih _ hlook _ hmem hok with hres | hstk
      · exact hres
      · rw [hempty] at hstk
        exact absurd hstk (List.not_mem_nil _)

/-- C6: the `epsilonClosure` traversal terminates on every finite state
graph (cyclic ones included): within the supplied fuel bound the work
stack provably empties, because the visited set admits each state at
most once (the returned closure has no duplicates). -/
theorem epsilonClosure_terminates :
    ∀ (T : Type) (states : List (NFAState T)) (seeds : List Nat)
      (position : Nat) (seqLength : Option Nat),
      (closureRun states position seqLength (closureFuel states seeds)
        (seeds.reverse, [])).1 = []
      ∧ (epsilonClosure states seeds position seqLength).Nodup := by
  intro T states seeds position seqLength
  refine ⟨closureRun_stack_empty states position seqLength _ _
    (closureMeasure_init_le states seeds), ?_⟩
  exact (closureRun_inv states position seqLength seeds
    (closureFuel states seeds) _
    (closureInv_init states position seqLength seeds)).2.2.2

/-- C7: a state is in the closure iff it is reachable from the seeds
through surviving states only (`InClosure`): a state whose anchor guard
fails at `(index, length)` is excluded, and — because `InClosure` only
steps through states that themselves survive — nothing reachable only
through a pruned state is ever included. -/
theorem epsilonClosure_anchor_pruning :
    ∀ (T : Type) (states : List (NFAState T)) (seeds : List Nat)
      (position : Nat) (seqLength : Option Nat) (s : Nat),
      (s ∈ epsilonClosure states seeds position seqLength ↔
        InClosure states position seqLength seeds s)
      ∧ (∀ st, states[s]? = some st →
          anchorPass st position seqLength = false →
          s ∉ epsilonClosure states seeds position seqLength) := by
  intro T states seeds position seqLength s
  refine ⟨mem_epsilonClosure_iff states seeds position seqLength s, ?_⟩
  intro st hst hfail hmem
  have hin := (mem_epsilonClosure_iff states seeds position seqLength s).mp hmem
  have hok : okState states position seqLength s := by
    cases hin with
    | seed _ hok => exact hok
    | step _ _ _ hok => exact hok
  obtain ⟨st', hlook, hpass⟩ := hok
  rw [hst] at hlook
  injection hlook with he
  rw [← he, hfail] at hpass
  exact absurd hpass (by simp)

theorem epsilonClosure_anchor_pruning_witness :
    (compile tEnd).states[2]? = some ⟨[3], [], some AnchorPos.stop⟩ ∧
    anchorPass (⟨[3], [], some AnchorPos.stop⟩ : NFAState Nat) 0 (some 5) = false ∧
    2 ∉ epsilonClosure (compile tEnd).states [2] 0 (some 5) :=
  ⟨rfl, rfl,
    (epsilonClosure_anchor_pruning Nat (compile tEnd).states [2] 0 (some 5) 2).2
      ⟨[3], [], some AnchorPos.stop⟩ rfl rfl⟩

theorem dfsClosure_eq_step {T : Type} (states : List (NFAState T))
    (position : Nat) (seqLength : Option Nat) :
    ∀ (stack result : List Nat), stack ≠ [] →
      dfsClosure states position seqLength stack result =
        dfsClosure states position seqLength
          (closureStep states position seqLength (stack, result)).1
          (closureStep states position seqLength (stack, result)).2 := by
  intro stack result hne
  cases stack with
  | nil => exact absurd rfl hne
  | cons s rest =>
    simp only [dfsClosure]
    by_cases hs : s ∈ result
    · rw [if_pos hs, closureStep_visited states position seqLength rest result hs]
    · rw [if_neg hs]
      cases hst : states[s]? with
      | none =>
        rw [closureStep_missing states position seqLength rest result hs hst]
      | some st =>
        cases hb : anchorPass st position seqLength with
        | false =>
          rw [closureStep_pruned states position seqLength rest result hs hst hb]
          split
          · next h' => exact Option.noConfusion h'
          · next st' h' =>
            injection h' with he
            subst he
            rw [if_neg (by simp [hb])]
        | true =>
          rw [closureStep_add states position seqLength rest result hs hst hb]
          split
          · next h' => exact Option.noConfusion h'
          · next st' h' =>
            injection h' with he
            subst he
            rw [if_pos hb]

theorem closureRun_eq_dfs {T : Type} (states : List (NFAState T))
    (position : Nat) (seqLength : Option Nat) :
    ∀ (fuel : Nat) (c : List Nat × List Nat),
      closureMeasure states c ≤ fuel →
      (closureRun states position seqLength fuel c).2 =
        dfsClosure states position seqLength c.1 c.2 := by
  intro fuel
  induction fuel with
  | zero =>
    intro c hc
    have hlen : c.1.length = 0 := by
      simp only [closureMeasure] at hc
      omega
    rw [List.length_eq_zero.mp hlen]
    simp [closureRun, dfsClosure]
  | succ fuel ih =>
    intro c hc
    simp only [closureRun]
    split
    · next h =>
      rw [h]
      simp [dfsClosure]
    · next h =>
      rw [ih _ (by
        have := closureStep_measure_lt states position seqLength c h
        omega)]
      exact (dfsClosure_eq_step states position seqLength c.1 c.2 h).symm

/-- C5 (amended): the closure preserves first-discovery order of the
traversal the code actually performs — a depth-first, stack-based
traversal that expands the LAST seed first and, within each expanded
state, the LAST-listed epsilon edge first; a state reached first in
that traversal is ordered before every state reached later.  (The claim
as written — seeds in given order, epsilon targets in listed order,
i.e. breadth-first discovery — is refuted by the counterexample.) -/
theorem epsilonClosure_eq_dfsOrder :
    ∀ (T : Type) (states : List (NFAState T)) (seeds : List Nat)
      (position : Nat) (seqLength : Option Nat),
      epsilonClosure states seeds position seqLength =
        dfsClosure states position seqLength seeds.reverse [] := by
  intro T states seeds position seqLength
  exact closureRun_eq_dfs states position seqLength _ _
    (closureMeasure_init_le states seeds)

/-- C5 counterexample: on an arena of two isolated, guard-free states
with seed set `[0, 1]`, the claim as stated requires the closure order
`[0, 1]` (seed states in their given order), but the code produces
`[1, 0]`: the stack is popped from the end, so the later seed is
discovered first. -/
theorem closure_seed_order_counterexample :
    epsilonClosure twoIsolated [0, 1] 0 (some 5) = [1, 0] ∧
      ([1, 0] : List Nat) ≠ [0, 1] := by
  decide

/-! ## Streaming: end anchors are deferred to `end()` -/

/-- C9: every closure computed during `push` uses the unbounded-length
sentinel (`none`), under which the end-anchor guard is false at every
index, so no end-anchor-guarded state can ever be in such a closure —
hence no match whose acceptance requires the end anchor can be emitted
by `push`; such matches appear only from `end()`.  Concretely, for the
pattern "even element anchored at end" streamed `[1, 3, 4]`, every
`push` returns the empty list and `end()` returns exactly
`[{start: 2, end: 2, data: [4]}]`. -/
theorem push_never_satisfies_end_anchor :
    (∀ (T : Type) (states : List (NFAState T)) (seeds : List Nat)
      (i s : Nat), s ∈ epsilonClosure states seeds i none →
      ∀ st, states[s]? = some st → st.anchorCheck ≠ some AnchorPos.stop)
    ∧ ((scannerPush (compile tEnd) true 1 (scannerNew (compile tEnd))).1 = []
      ∧ (scannerPush (compile tEnd) true 3
          (scannerPush (compile tEnd) true 1 (scannerNew (compile tEnd))).2).1 = []
      ∧ (scannerPush (compile tEnd) true 4
          (scannerPush (compile tEnd) true 3
            (scannerPush (compile tEnd) true 1
              (scannerNew (compile tEnd))).2).2).1 = []
      ∧ (scannerEnd (compile tEnd) true
          (scannerPush (compile tEnd) true 4
            (scannerPush (compile tEnd) true 3
              (scannerPush (compile tEnd) true 1
                (scannerNew (compile tEnd))).2).2).2).1 = [⟨2, 2, [4]⟩]) := by
  constructor
  · intro T states seeds i s hmem st hst hstop
    have hin := (mem_epsilonClosure_iff states seeds i none s).mp hmem
    have hok : okState states i none s := by
      cases hin with
      | seed _ hok => exact hok
      | step _ _ _ hok => exact hok
    obtain ⟨st', hlook, hpass⟩ := hok
    rw [hst] at hlook
    injection hlook with he
    rw [← he, anchorPass, hstop] at hpass
    simp [anchorOk] at hpass
  · exact ⟨by decide, by decide, by decide, by decide⟩

theorem push_never_satisfies_end_anchor_witness :
    (0 ∈ epsilonClosure (compile tEnd).states [0] 0 none)
    ∧ (compile tEnd).states[0]? = some ⟨[], [(isEven, 1)], none⟩
    ∧ (⟨[], [(isEven, 1)], none⟩ : NFAState Nat).anchorCheck ≠
        some AnchorPos.stop :=
  ⟨by decide, rfl,
    push_never_satisfies_end_anchor.1 Nat (compile tEnd).states [0] 0 0
      (by decide) ⟨[], [(isEven, 1)], none⟩ rfl⟩

/-! ## Lazy returns the first candidate, greedy the longest -/

theorem closureRun_nil_stack {T : Type} (states : List (NFAState T))
    (position : Nat) (seqLength : Option Nat) (result : List Nat) :
    ∀ fuel, closureRun states position seqLength fuel ([], result) =
      ([], result) := by
  intro fuel
  cases fuel with
  | zero => rfl
  | succ fuel => simp [closureRun]

theorem epsilonClosure_nil {T : Type} (states : List (NFAState T))
    (position : Nat) (seqLength : Option Nat) :
    epsilonClosure states [] position seqLength = [] := by
  simp [epsilonClosure, closureRun_nil_stack]

theorem stepActive_nil {T : Type} (states : List (NFAState T)) (x : T) :
    stepActive states [] x = [] := rfl

theorem candLoop_nil_active {T : Type} (nfa : NFA T) (len offset : Nat) :
    ∀ (xs : List T) (k : Nat), candLoop nfa len offset xs k [] = [] := by
  intro xs
  induction xs with
  | nil => intro k; simp [candLoop]
  | cons x rest ih =>
    intro k
    simp only [candLoop, stepActive_nil, epsilonClosure_nil]
    rw [if_neg (List.not_mem_nil _)]
    exact ih (k + 1)

theorem simulateLoop_lazy_eq_head {T : Type} (nfa : NFA T) (len offset : Nat) :
    ∀ (xs : List T) (k : Nat) (active : List Nat),
      simulateLoop nfa len false offset xs k active none =
        (candLoop nfa len offset xs k active).head? := by
  intro xs
  induction xs with
  | nil => intro k active; simp [simulateLoop, candLoop]
  | cons x rest ih =>
    intro k active
    simp only [simulateLoop, candLoop]
    generalize hA : epsilonClosure nfa.states (stepActive nfa.states active x)
      (offset + k + 1) (some len) = A
    by_cases hempty : A = []
    · subst hempty
      rw [if_pos rfl, if_neg (List.not_mem_nil _), candLoop_nil_active]
      rfl
    · rw [if_neg hempty]
      by_cases hacc : nfa.accept ∈ A
      · rw [if_pos ⟨hacc, trivial⟩, if_pos hacc, if_pos hacc]
        rfl
      · rw [if_neg (fun h => hacc h.1), if_neg hacc, if_neg hacc, ih (k + 1) A]

theorem simulateLoop_greedy_eq_getLast {T : Type} (nfa : NFA T)
    (len offset : Nat) :
    ∀ (xs : List T) (k : Nat) (active : List Nat) (last : Option Nat),
      simulateLoop nfa len true offset xs k active last =
        ((candLoop nfa len offset xs k active).getLast?).or last := by
  intro xs
  induction xs with
  | nil => intro k active last; simp [simulateLoop, candLoop]
  | cons x rest ih =>
    intro k active last
    simp only [simulateLoop, candLoop]
    generalize hA : epsilonClosure nfa.states (stepActive nfa.states active x)
      (offset + k + 1) (some len) = A
    by_cases hempty : A = []
    · subst hempty
      rw [if_pos rfl, if_neg (List.not_mem_nil _), candLoop_nil_active]
      simp
    · rw [if_neg hempty, if_neg (fun h => Bool.noConfusion h.2)]
      by_cases hacc : nfa.accept ∈ A
      · rw [if_pos hacc, if_pos hacc, ih (k + 1) A (some (k + 1))]
        cases hcl : candLoop nfa len offset rest (k + 1) A with
        | nil => simp
        | cons c cs =>
          rw [List.getLast?_cons_cons]
          have hsome : (c :: cs).getLast?.isSome := by
            rw [List.getLast?_isSome]
            exact List.cons_ne_nil c cs
          obtain ⟨v, hv⟩ := Option.isSome_iff_exists.mp hsome
          rw [hv]
          simp
      · rw [if_neg hacc, if_neg hacc, ih (k + 1) A last]

theorem simulate_lazy_spec {T : Type} (nfa : NFA T) (sequence : List T)
    (offset : Nat) :
    simulate nfa sequence offset false =
      (match (simCands nfa sequence offset).head? with
       | some k => ⟨true, k⟩
       | none => ⟨false, 0⟩) := by
  simp only [simulate, simCands]
  by_cases hacc : nfa.accept ∈ epsilonClosure nfa.states [nfa.start] offset
    (some sequence.length)
  · rw [if_pos hacc, if_pos hacc, if_pos ⟨trivial, by simp⟩]
    rfl
  · rw [if_neg hacc, if_neg hacc, if_neg (by simp)]
    rw [List.nil_append, simulateLoop_lazy_eq_head]
    cases (candLoop nfa sequence.length offset (sequence.drop offset) 0
      (epsilonClosure nfa.states [nfa.start] offset
        (some sequence.length))).head? with
    | none => rfl
    | some k => rfl

theorem simulate_greedy_spec {T : Type} (nfa : NFA T) (sequence : List T)
    (offset : Nat) :
    simulate nfa sequence offset true =
      (match (simCands nfa sequence offset).getLast? with
       | some k => ⟨true, k⟩
       | none => ⟨false, 0⟩) := by
  simp only [simulate, simCands]
  rw [if_neg (by simp)]
  by_cases hacc : nfa.accept ∈ epsilonClosure nfa.states [nfa.start] offset
    (some sequence.length)
  · rw [if_pos hacc, if_pos hacc, simulateLoop_greedy_eq_getLast]
    cases hcl : candLoop nfa sequence.length offset (sequence.drop offset) 0
      (epsilonClosure nfa.states [nfa.start] offset (some sequence.length)) with
    | nil => simp
    | cons c cs =>
      rw [List.singleton_append, List.getLast?_cons_cons]
      have hsome : (c :: cs).getLast?.isSome := by
        rw [List.getLast?_isSome]
        exact List.cons_ne_nil c cs
      obtain ⟨v, hv⟩ := Option.isSome_iff_exists.mp hsome
      rw [hv]
      simp
  · rw [if_neg hacc, if_neg hacc, simulateLoop_greedy_eq_getLast]
    rw [List.nil_append, Option.or_none]
    cases (candLoop nfa sequence.length offset (sequence.drop offset) 0
      (epsilonClosure nfa.states [nfa.start] offset
        (some sequence.length))).getLast? with
    | none => rfl
    | some k => rfl

/-- C8: in lazy mode `simulate` returns the first (shortest) recorded
candidate — immediately `{matched: true, length: 0}` when the accept
state is already in the initial closure, and otherwise the head of the
increasing candidate list, i.e. the length `i - offset + 1` for the
first index `i` at which the accept state enters the active set (or no
match when there is none) — while in greedy mode it keeps scanning and
returns the last (longest) recorded candidate. -/
theorem simulate_lazy_first_greedy_longest :
    ∀ (T : Type) (nfa : NFA T) (sequence : List T) (offset : Nat),
      (nfa.accept ∈ epsilonClosure nfa.states [nfa.start] offset
          (some sequence.length) →
        simulate nfa sequence offset false = ⟨true, 0⟩)
      ∧ simulate nfa sequence offset false =
          (match (simCands nfa sequence offset).head? with
           | some k => ⟨true, k⟩
           | none => ⟨false, 0⟩)
      ∧ simulate nfa sequence offset true =
          (match (simCands nfa sequence offset).getLast? with
           | some k => ⟨true, k⟩
           | none => ⟨false, 0⟩) := by
  intro T nfa sequence offset
  refine ⟨?_, simulate_lazy_spec nfa sequence offset,
    simulate_greedy_spec nfa sequence offset⟩
  intro hacc
  simp [simulate, hacc]

theorem simulate_lazy_first_greedy_longest_witness :
    ((compile tLazyOpt).accept ∈ epsilonClosure (compile tLazyOpt).states
      [(compile tLazyOpt).start] 0 (some ([0] : List Nat).length))
    ∧ simulate (compile tLazyOpt) [0] 0 false = ⟨true, 0⟩ :=
  ⟨by decide,
    (simulate_lazy_first_greedy_longest Nat (compile tLazyOpt) [0] 0).1
      (by decide)⟩

/-- C1 fails on the code: for the lazy optional pattern
`quantifier(any-element, 0, 1, lazy)` over the one-element sequence
`[0]`, the batch engine's `findAll` returns no match (the lazy simulate
returns the zero-length candidate immediately, so `findAll` only
advances), while the Scanner — whose `initSimulation` lacks the batch
engine's lazy zero-length early return — records a length-1 candidate
during `push` and emits `{start: 0, end: 0, data: [0]}`.  This theorem
evaluates both sides of the claimed equivalence at that input. -/
theorem scanner_findAll_divergence :
    isGreedy tLazyOpt = false ∧
    findAll (compile tLazyOpt) [0] (isGreedy tLazyOpt) = [] ∧
    scannerCollect (compile tLazyOpt) (isGreedy tLazyOpt) [0] =
      [⟨0, 0, [0]⟩] := by
  decide

/-! ## Greedy vs lazy: candidate order and the same-graph comparison -/

theorem chain_lt_weaken {a b : Nat} (l : List Nat) (hab : a < b) :
    List.Chain' (fun x y => x < y) (b :: l) →
    List.Chain' (fun x y => x < y) (a :: l) := by
  intro h
  cases l with
  | nil => simp
  | cons c cs =>
    rw [List.chain'_cons] at h ⊢
    exact ⟨by omega, h.2⟩

theorem candLoop_chain {T : Type} (nfa : NFA T) (len offset : Nat) :
    ∀ (xs : List T) (k : Nat) (active : List Nat),
      List.Chain' (fun x y => x < y)
        (k :: candLoop nfa len offset xs k active) := by
  intro xs
  induction xs with
  | nil =>
    intro k active
    simp [candLoop]
  | cons x rest ih =>
    intro k active
    simp only [candLoop]
    by_cases hacc : nfa.accept ∈ epsilonClosure nfa.states
        (stepActive nfa.states active x) (offset + k + 1) (some len)
    · rw [if_pos hacc, List.chain'_cons]
      exact ⟨Nat.lt_succ_self k, ih (k + 1) _⟩
    · rw [if_neg hacc]
      exact chain_lt_weaken _ (Nat.lt_succ_self k) (ih (k + 1) _)

theorem simCands_chain {T : Type} (nfa : NFA T) (sequence : List T)
    (offset : Nat) :
    List.Chain' (fun x y => x < y) (simCands nfa sequence offset) := by
  simp only [simCands]
  by_cases hacc : nfa.accept ∈ epsilonClosure nfa.states [nfa.start] offset
    (some sequence.length)
  · rw [if_pos hacc, List.singleton_append]
    exact candLoop_chain nfa sequence.length offset _ 0 _
  · rw [if_neg hacc, List.nil_append]
    exact (candLoop_chain nfa sequence.length offset _ 0 _).tail

theorem chain_head_le_getLast :
    ∀ (l : List Nat), List.Chain' (fun x y => x < y) l →
      ∀ a b, l.head? = some a → l.getLast? = some b → a ≤ b := by
  intro l
  induction l with
  | nil =>
    intro _ a b ha
    exact absurd ha (by simp)
  | cons c cs ih =>
    intro hch a b ha hb
    rw [List.head?_cons] at ha
    injection ha with ha
    subst ha
    cases cs with
    | nil =>
      have : b = c := by simpa using hb.symm
      omega
    | cons d ds =>
      rw [List.chain'_cons] at hch
      have hd := ih hch.2 d b (by simp) (by rwa [List.getLast?_cons_cons] at hb)
      omega

theorem greedy_ge_lazy_same_graph {T : Type} (nfa : NFA T)
    (sequence : List T) (offset : Nat) :
    (simulate nfa sequence offset false).matched = true →
    (simulate nfa sequence offset false).length ≤
      (simulate nfa sequence offset true).length := by
  rw [simulate_lazy_spec, simulate_greedy_spec]
  cases hh : (simCands nfa sequence offset).head? with
  | none => simp
  | some a =>
    have hne : simCands nfa sequence offset ≠ [] := by
      intro h
      rw [h] at hh
      exact Option.noConfusion hh
    obtain ⟨b, hb⟩ := Option.isSome_iff_exists.mp (List.getLast?_isSome.mpr hne)
    rw [hb]
    intro _
    simpa using chain_head_le_getLast _ (simCands_chain nfa sequence offset)
      a b hh hb

/-! ## Graph equivalence up to epsilon order -/

theorem stateRel_refl {T : Type} (st : NFAState T) : StateRel st st :=
  ⟨List.Perm.refl _, rfl, rfl⟩

theorem stateRel_symm {T : Type} {st₁ st₂ : NFAState T} (h : StateRel st₁ st₂) :
    StateRel st₂ st₁ :=
  ⟨h.1.symm, h.2.1.symm, h.2.2.symm⟩

theorem forall2_stateRel_symm {T : Type} :
    ∀ {gs₁ gs₂ : List (NFAState T)}, List.Forall₂ StateRel gs₁ gs₂ →
      List.Forall₂ StateRel gs₂ gs₁ := by
  intro gs₁ gs₂ h
  induction h with
  | nil => exact List.Forall₂.nil
  | cons hR _ ih => exact List.Forall₂.cons (stateRel_symm hR) ih

theorem forall2_append {α β : Type} {R : α → β → Prop}
    {l₁ u₁ : List α} {l₂ u₂ : List β} (h : List.Forall₂ R l₁ l₂)
    (h' : List.Forall₂ R u₁ u₂) : List.Forall₂ R (l₁ ++ u₁) (l₂ ++ u₂) :=
  List.rel_append h h'

theorem forall2_getElem? {α β : Type} {R : α → β → Prop} :
    ∀ {l₁ : List α} {l₂ : List β}, List.Forall₂ R l₁ l₂ → ∀ (i : Nat),
      (l₁[i]? = none ∧ l₂[i]? = none) ∨
      ∃ a b, l₁[i]? = some a ∧ l₂[i]? = some b ∧ R a b := by
  intro l₁ l₂ h
  induction h with
  | nil =>
    intro i
    exact Or.inl ⟨rfl, rfl⟩
  | cons hR hF ih =>
    intro i
    cases i with
    | zero => exact Or.inr ⟨_, _, by simp, by simp, hR⟩
    | succ n => simpa using ih n

theorem anchorPass_congr {T : Type} {st₁ st₂ : NFAState T}
    (h : st₁.anchorCheck = st₂.anchorCheck) (position : Nat)
    (seqLength : Option Nat) :
    anchorPass st₁ position seqLength = anchorPass st₂ position seqLength := by
  unfold anchorPass
  rw [h]

theorem okState_congr {T : Type} {gs₁ gs₂ : List (NFAState T)}
    (h : List.Forall₂ StateRel gs₁ gs₂) (position : Nat)
    (seqLength : Option Nat) (s : Nat) :
    okState gs₁ position seqLength s ↔ okState gs₂ position seqLength s := by
  rcases forall2_getElem? h s with ⟨h1, h2⟩ | ⟨a, b, h1, h2, hR⟩
  · constructor <;> rintro ⟨st, hlook, -⟩
    · rw [h1] at hlook
      exact Option.noConfusion hlook
    · rw [h2] at hlook
      exact Option.noConfusion hlook
  · constructor
    · rintro ⟨st, hlook, hpass⟩
      rw [h1] at hlook
      injection hlook with he
      subst he
      exact ⟨b, h2, by rw [← anchorPass_congr hR.2.2]; exact hpass⟩
    · rintro ⟨st, hlook, hpass⟩
      rw [h2] at hlook
      injection hlook with he
      subst he
      exact ⟨a, h1, by rw [anchorPass_congr hR.2.2]; exact hpass⟩

theorem inClosure_congr {T : Type} {gs₁ gs₂ : List (NFAState T)}
    (h : List.Forall₂ StateRel gs₁ gs₂) (position : Nat)
    (seqLength : Option Nat) {seeds₁ seeds₂ : List Nat}
    (hseeds : ∀ x, x ∈ seeds₁ ↔ x ∈ seeds₂) {s : Nat} :
    InClosure gs₁ position seqLength seeds₁ s →
    InClosure gs₂ position seqLength seeds₂ s := by
  intro hin
  induction hin with
  | seed hs hok =>
    exact .seed ((hseeds _).mp hs)
      ((okState_congr h position seqLength _).mp hok)
  | step ht hlook hmem hok ih =>
    rename_i t u st
    rcases forall2_getElem? h t with ⟨h1, -⟩ | ⟨a, b, h1, h2, hR⟩
    · rw [h1] at hlook
      exact Option.noConfusion hlook
    · rw [h1] at hlook
      injection hlook with he
      subst he
      exact .step ih h2 (hR.1.mem_iff.mp hmem)
        ((okState_congr h position seqLength _).mp hok)

theorem epsilonClosure_mem_congr {T : Type} {gs₁ gs₂ : List (NFAState T)}
    (h : List.Forall₂ StateRel gs₁ gs₂) {seeds₁ seeds₂ : List Nat}
    (hseeds : ∀ x, x ∈ seeds₁ ↔ x ∈ seeds₂) (position : Nat)
    (seqLength : Option Nat) (s : Nat) :
    s ∈ epsilonClosure gs₁ seeds₁ position seqLength ↔
      s ∈ epsilonClosure gs₂ seeds₂ position seqLength := by
  rw [mem_epsilonClosure_iff, mem_epsilonClosure_iff]
  constructor
  · exact inClosure_congr h position seqLength hseeds
  · exact inClosure_congr (forall2_stateRel_symm h) position seqLength
      (fun x => (hseeds x).symm)

theorem mem_addUnique (l : List Nat) (x y : Nat) :
    y ∈ addUnique l x ↔ y ∈ l ∨ y = x := by
  unfold addUnique
  split
  · next hx =>
    constructor
    · exact Or.inl
    · rintro (h | rfl)
      · exact h
      · exact hx
  · simp

theorem mem_transFold {T : Type} (x : T) (tgt : Nat) :
    ∀ (trs : List (Predicate T × Nat)) (init : List Nat),
      tgt ∈ trs.foldl
        (fun next2 tr => if tr.1 x then addUnique next2 tr.2 else next2) init ↔
      tgt ∈ init ∨ ∃ tr ∈ trs, tr.1 x = true ∧ tr.2 = tgt := by
  intro trs
  induction trs with
  | nil => simp
  | cons tr rest ih =>
    intro init
    simp only [List.foldl_cons]
    rw [ih]
    by_cases hp : tr.1 x = true
    · rw [if_pos hp, mem_addUnique]
      constructor
      · rintro ((h | h) | ⟨tr', htr', hp', ht'⟩)
        · exact Or.inl h
        · exact Or.inr ⟨tr, List.mem_cons_self _ _, hp, h.symm⟩
        · exact Or.inr ⟨tr', List.mem_cons_of_mem _ htr', hp', ht'⟩
      · rintro (h | ⟨tr', htr', hp', ht'⟩)
        · exact Or.inl (Or.inl h)
        · rcases List.mem_cons.mp htr' with rfl | hmem
          · exact Or.inl (Or.inr ht'.symm)
          · exact Or.inr ⟨tr', hmem, hp', ht'⟩
    · rw [if_neg hp]
      constructor
      · rintro (h | ⟨tr', htr', hp', ht'⟩)
        · exact Or.inl h
        · exact Or.inr ⟨tr', List.mem_cons_of_mem _ htr', hp', ht'⟩
      · rintro (h | ⟨tr', htr', hp', ht'⟩)
        · exact Or.inl h
        · rcases List.mem_cons.mp htr' with rfl | hmem
          · exact absurd hp' hp
          · exact Or.inr ⟨tr', hmem, hp', ht'⟩

theorem mem_stepActive_aux {T : Type} (gs : List (NFAState T)) (x : T)
    (tgt : Nat) :
    ∀ (active init : List Nat),
      tgt ∈ active.foldl
        (fun next s =>
          match gs[s]? with
          | none => next
          | some st =>
            st.transitions.foldl
              (fun next2 tr =>
                if tr.1 x then addUnique next2 tr.2 else next2) next) init ↔
      tgt ∈ init ∨ ∃ s ∈ active, ∃ st, gs[s]? = some st ∧
        ∃ tr ∈ st.transitions, tr.1 x = true ∧ tr.2 = tgt := by
  intro active
  induction active with
  | nil => simp
  | cons s rest ih =>
    intro init
    simp only [List.foldl_cons]
    cases hst : gs[s]? with
    | none =>
      rw [ih]
      constructor
      · rintro (h | ⟨s', hs', st', hst', htr⟩)
        · exact Or.inl h
        · exact Or.inr ⟨s', List.mem_cons_of_mem _ hs', st', hst', htr⟩
      · rintro (h | ⟨s', hs', st', hst', htr⟩)
        · exact Or.inl h
        · rcases List.mem_cons.mp hs' with rfl | hmem
          · rw [hst] at hst'
            exact Option.noConfusion hst'
          · exact Or.inr ⟨s', hmem, st', hst', htr⟩
    | some st =>
      rw [ih, mem_transFold]
      constructor
      · rintro ((h | htr) | ⟨s', hs', st', hst', htr⟩)
        · exact Or.inl h
        · exact Or.inr ⟨s, List.mem_cons_self _ _, st, hst, htr⟩
        · exact Or.inr ⟨s', List.mem_cons_of_mem _ hs', st', hst', htr⟩
      · rintro (h | ⟨s', hs', st', hst', htr⟩)
        · exact Or.inl (Or.inl h)
        · rcases List.mem_cons.mp hs' with rfl | hmem
          · rw [hst] at hst'
            injection hst' with he
            subst he
            exact Or.inl (Or.inr htr)
          · exact Or.inr ⟨s', hmem, st', hst', htr⟩

theorem mem_stepActive {T : Type} (gs : List (NFAState T)) (x : T)
    (active : List Nat) (tgt : Nat) :
    tgt ∈ stepActive gs active x ↔
      ∃ s ∈ active, ∃ st, gs[s]? = some st ∧
        ∃ tr ∈ st.transitions, tr.1 x = true ∧ tr.2 = tgt := by
  unfold stepActive
  rw [mem_stepActive_aux]
  simp

theorem stepActive_mem_congr {T : Type} {gs₁ gs₂ : List (NFAState T)}
    (h : List.Forall₂ StateRel gs₁ gs₂) {active₁ active₂ : List Nat}
    (hact : ∀ u, u ∈ active₁ ↔ u ∈ active₂) (x : T) (tgt : Nat) :
    tgt ∈ stepActive gs₁ active₁ x ↔ tgt ∈ stepActive gs₂ active₂ x := by
  rw [mem_stepActive, mem_stepActive]
  constructor
  · rintro ⟨s, hs, st, hst, htr⟩
    rcases forall2_getElem? h s with ⟨h1, -⟩ | ⟨a, b, h1, h2, hR⟩
    · rw [h1] at hst
      exact Option.noConfusion hst
    · rw [h1] at hst
      injection hst with he
      subst he
      exact ⟨s, (hact s).mp hs, b, h2, by rw [← hR.2.1]; exact htr⟩
  · rintro ⟨s, hs, st, hst, htr⟩
    rcases forall2_getElem? h s with ⟨-, h2⟩ | ⟨a, b, h1, h2, hR⟩
    · rw [h2] at hst
      exact Option.noConfusion hst
    · rw [h2] at hst
      injection hst with he
      subst he
      exact ⟨s, (hact s).mpr hs, a, h1, by rw [hR.2.1]; exact htr⟩

theorem simulateLoop_congr {T : Type} {nfa₁ nfa₂ : NFA T}
    (hrel : List.Forall₂ StateRel nfa₁.states nfa₂.states)
    (haccept : nfa₁.accept = nfa₂.accept) (len : Nat) (greedy : Bool)
    (offset : Nat) :
    ∀ (xs : List T) (k : Nat) (active₁ active₂ : List Nat)
      (last : Option Nat), (∀ u, u ∈ active₁ ↔ u ∈ active₂) →
      simulateLoop nfa₁ len greedy offset xs k active₁ last =
        simulateLoop nfa₂ len greedy offset xs k active₂ last := by
  intro xs
  induction xs with
  | nil =>
    intro k active₁ active₂ last hact
    rfl
  | cons x rest ih =>
    intro k active₁ active₂ last hact
    simp only [simulateLoop]
    have hmem : ∀ u, u ∈ epsilonClosure nfa₁.states
        (stepActive nfa₁.states active₁ x) (offset + k + 1) (some len) ↔
        u ∈ epsilonClosure nfa₂.states (stepActive nfa₂.states active₂ x)
          (offset + k + 1) (some len) :=
      fun u => epsilonClosure_mem_congr hrel
        (fun v => stepActive_mem_congr hrel hact x v) (offset + k + 1)
        (some len) u
    have hempty : (epsilonClosure nfa₁.states
        (stepActive nfa₁.states active₁ x) (offset + k + 1) (some len) = [])
        ↔ (epsilonClosure nfa₂.states (stepActive nfa₂.states active₂ x)
          (offset + k + 1) (some len) = []) := by
      rw [List.eq_nil_iff_forall_not_mem, List.eq_nil_iff_forall_not_mem]
      constructor
      · intro hx u hu
        exact hx u ((hmem u).mpr hu)
      · intro hx u hu
        exact hx u ((hmem u).mp hu)
    have haccm : (nfa₁.accept ∈ epsilonClosure nfa₁.states
        (stepActive nfa₁.states active₁ x) (offset + k + 1) (some len))
        ↔ (nfa₂.accept ∈ epsilonClosure nfa₂.states
          (stepActive nfa₂.states active₂ x) (offset + k + 1) (some len)) := by
      rw [haccept]
      exact hmem _
    by_cases he₁ : epsilonClosure nfa₁.states
        (stepActive nfa₁.states active₁ x) (offset + k + 1) (some len) = []
    · rw [if_pos he₁, if_pos (hempty.mp he₁)]
    · rw [if_neg he₁, if_neg (fun hh => he₁ (hempty.mpr hh))]
      by_cases hacc₁ : nfa₁.accept ∈ epsilonClosure nfa₁.states
          (stepActive nfa₁.states active₁ x) (offset + k + 1) (some len)
      · have hacc₂ := haccm.mp hacc₁
        rw [if_pos hacc₁, if_pos hacc₂]
        cases greedy with
        | false =>
          rw [if_pos ⟨hacc₁, rfl⟩, if_pos ⟨hacc₂, rfl⟩]
        | true =>
          rw [if_neg (fun hh => Bool.noConfusion hh.2),
            if_neg (fun hh => Bool.noConfusion hh.2)]
          exact ih (k + 1) _ _ _ hmem
      · have hacc₂ := fun hh => hacc₁ (haccm.mpr hh)
        rw [if_neg hacc₁, if_neg hacc₂,
          if_neg (fun hh => hacc₁ hh.1), if_neg (fun hh => hacc₂ hh.1)]
        exact ih (k + 1) _ _ _ hmem

theorem simulate_congr {T : Type} {nfa₁ nfa₂ : NFA T}
    (hrel : List.Forall₂ StateRel nfa₁.states nfa₂.states)
    (hstart : nfa₁.start = nfa₂.start) (haccept : nfa₁.accept = nfa₂.accept)
    (sequence : List T) (offset : Nat) (greedy : Bool) :
    simulate nfa₁ sequence offset greedy =
      simulate nfa₂ sequence offset greedy := by
  have hmem : ∀ u, u ∈ epsilonClosure nfa₁.states [nfa₁.start] offset
      (some sequence.length) ↔
      u ∈ epsilonClosure nfa₂.states [nfa₂.start] offset
        (some sequence.length) :=
    fun u => epsilonClosure_mem_congr hrel (by rw [hstart]; intro x; rfl)
      offset (some sequence.length) u
  have haccm : (nfa₁.accept ∈ epsilonClosure nfa₁.states [nfa₁.start] offset
      (some sequence.length)) ↔
      (nfa₂.accept ∈ epsilonClosure nfa₂.states [nfa₂.start] offset
        (some sequence.length)) := by
    rw [haccept]
    exact hmem _
  simp only [simulate]
  by_cases hacc₁ : nfa₁.accept ∈ epsilonClosure nfa₁.states [nfa₁.start]
      offset (some sequence.length)
  · have hacc₂ := haccm.mp hacc₁
    rw [if_pos hacc₁, if_pos hacc₂]
    cases greedy with
    | false => rw [if_pos ⟨rfl, by simp⟩, if_pos ⟨rfl, by simp⟩]
    | true =>
      rw [if_neg (by simp), if_neg (by simp)]
      rw [simulateLoop_congr hrel haccept sequence.length true offset
        (sequence.drop offset) 0 _ _ (some 0) hmem]
  · have hacc₂ := fun hh => hacc₁ (haccm.mpr hh)
    rw [if_neg hacc₁, if_neg hacc₂, if_neg (by simp), if_neg (by simp)]
    rw [simulateLoop_congr hrel haccept sequence.length greedy offset
      (sequence.drop offset) 0 _ _ none hmem]

/-! ## Tree sizes, shape relations, and the flip lemmas -/

theorem sizeP_pos {T : Type} : ∀ t : PatternNode T, 0 < sizeP t := by
  intro t
  cases t <;> simp [sizeP]

theorem sizeP_le_of_mem {T : Type} {c : PatternNode T} :
    ∀ {cs : List (PatternNode T)}, c ∈ cs → sizeP c ≤ sizePL cs := by
  intro cs
  induction cs with
  | nil => intro h; exact absurd h (List.not_mem_nil c)
  | cons d rest ih =>
    intro h
    rcases List.mem_cons.mp h with rfl | hmem
    · simp only [sizePL]
      omega
    · have := ih hmem
      simp only [sizePL]
      omega

theorem sameShape_refl_aux {T : Type} :
    ∀ n (t : PatternNode T), sizeP t ≤ n → SameShape t t := by
  intro n
  induction n with
  | zero =>
    intro t h
    exact absurd h (by have := sizeP_pos t; omega)
  | succ n ih =>
    intro t h
    cases t with
    | predicate fn => exact .predicate fn
    | any => exact .any
    | anchor p => exact .anchor p
    | quantifier c min max g =>
      refine .quantifier min max g g (ih c ?_)
      simp only [sizeP] at h
      omega
    | alternation l r =>
      refine .alternation (ih l ?_) (ih r ?_) <;>
        (simp only [sizeP] at h; omega)
    | sequence cs =>
      have hsz : sizePL cs ≤ n := by
        simp only [sizeP] at h
        omega
      have hforall : ∀ (l : List (PatternNode T)), sizePL l ≤ n →
          List.Forall₂ SameShape l l := by
        intro l
        induction l with
        | nil => intro _; exact .nil
        | cons c rest ihl =>
          intro hl
          simp only [sizePL] at hl
          exact .cons (ih c (by omega)) (ihl (by omega))
      exact .sequence (hforall cs hsz)

theorem sameShape_refl {T : Type} (t : PatternNode T) : SameShape t t :=
  sameShape_refl_aux (sizeP t) t (le_refl _)

theorem forall2_sameShape_refl {T : Type} (cs : List (PatternNode T)) :
    List.Forall₂ SameShape cs cs :=
  List.forall₂_same.mpr (fun x _ => sameShape_refl x)

theorem flipAt_sameShape {T : Type} {t₁ t₂ : PatternNode T}
    (h : FlipAt t₁ t₂) : SameShape t₁ t₂ := by
  induction h with
  | here c min max => exact .quantifier min max true false (sameShape_refl c)
  | inSeq pre post hab ih =>
    exact .sequence (forall2_append (forall2_sameShape_refl pre)
      (.cons ih (forall2_sameShape_refl post)))
  | inQuant min max g hab ih => exact .quantifier min max g g ih
  | inAltL hab ih => exact .alternation ih (sameShape_refl _)
  | inAltR hab ih => exact .alternation (sameShape_refl _) ih

theorem isGreedyL_append {T : Type} :
    ∀ (l₁ l₂ : List (PatternNode T)),
      isGreedyL (l₁ ++ l₂) = (isGreedyL l₁ && isGreedyL l₂) := by
  intro l₁ l₂
  induction l₁ with
  | nil => simp [isGreedyL]
  | cons c rest ih =>
    simp only [List.cons_append, isGreedyL, List.append_eq]
    rw [ih, Bool.and_assoc]

theorem flipAt_isGreedy_false {T : Type} {t₁ t₂ : PatternNode T}
    (h : FlipAt t₁ t₂) : isGreedy t₂ = false := by
  induction h with
  | here c min max => simp [isGreedy]
  | inSeq pre post hab ih => simp [isGreedy, isGreedyL_append, isGreedyL, ih]
  | inQuant min max g hab ih => simp [isGreedy, ih]
  | inAltL hab ih => simp [isGreedy, ih]
  | inAltR hab ih => simp [isGreedy, ih]

/-! ## The compiler respects shape equivalence up to epsilon order -/

theorem forall2_set {α β : Type} {R : α → β → Prop} :
    ∀ {l₁ : List α} {l₂ : List β}, List.Forall₂ R l₁ l₂ →
      ∀ (i : Nat) {a : α} {b : β}, R a b →
        List.Forall₂ R (l₁.set i a) (l₂.set i b) := by
  intro l₁ l₂ h
  induction h with
  | nil => intro i a b hab; exact .nil
  | cons hR hF ih =>
    intro i a b hab
    cases i with
    | zero => simpa using List.Forall₂.cons hab hF
    | succ n => simpa using List.Forall₂.cons hR (ih n hab)

theorem createState_congr {T : Type} {b₁ b₂ : Builder T}
    (h : List.Forall₂ StateRel b₁ b₂) :
    List.Forall₂ StateRel (createState b₁).1 (createState b₂).1 ∧
      (createState b₁).2 = (createState b₂).2 :=
  ⟨forall2_append h (.cons (stateRel_refl _) .nil), h.length_eq⟩

theorem pushEps_congr {T : Type} {b₁ b₂ : Builder T}
    (h : List.Forall₂ StateRel b₁ b₂) (src : Nat) {t₁ t₂ : List Nat}
    (hperm : t₁.Perm t₂) :
    List.Forall₂ StateRel (pushEps b₁ src t₁) (pushEps b₂ src t₂) := by
  unfold pushEps
  rcases forall2_getElem? h src with ⟨h1, h2⟩ | ⟨a, b, h1, h2, hR⟩
  · rw [h1, h2]
    exact h
  · rw [h1, h2]
    exact forall2_set h src ⟨hR.1.append hperm, hR.2.1, hR.2.2⟩

theorem pushTrans_congr {T : Type} {b₁ b₂ : Builder T}
    (h : List.Forall₂ StateRel b₁ b₂) (src : Nat) (fn : Predicate T)
    (tgt : Nat) :
    List.Forall₂ StateRel (pushTrans b₁ src fn tgt)
      (pushTrans b₂ src fn tgt) := by
  unfold pushTrans
  rcases forall2_getElem? h src with ⟨h1, h2⟩ | ⟨a, b, h1, h2, hR⟩
  · rw [h1, h2]
    exact h
  · rw [h1, h2]
    exact forall2_set h src ⟨hR.1, by rw [hR.2.1], hR.2.2⟩

theorem setAnchor_congr {T : Type} {b₁ b₂ : Builder T}
    (h : List.Forall₂ StateRel b₁ b₂) (src : Nat) (a : AnchorPos) :
    List.Forall₂ StateRel (setAnchor b₁ src a) (setAnchor b₂ src a) := by
  unfold setAnchor
  rcases forall2_getElem? h src with ⟨h1, h2⟩ | ⟨x, y, h1, h2, hR⟩
  · rw [h1, h2]
    exact h
  · rw [h1, h2]
    exact forall2_set h src ⟨hR.1, hR.2.1, rfl⟩

theorem ifPerm (g₁ g₂ : Bool) (s a : Nat) :
    (if g₁ then [s, a] else [a, s]).Perm (if g₂ then [s, a] else [a, s]) := by
  cases g₁ <;> cases g₂ <;> simp
  · exact List.Perm.swap s a []
  · exact List.Perm.swap a s []

theorem compileCopies_congr {T : Type}
    {f₁ f₂ : Builder T → Builder T × Nat × Nat}
    (hf : ∀ b₁ b₂, List.Forall₂ StateRel b₁ b₂ →
      List.Forall₂ StateRel (f₁ b₁).1 (f₂ b₂).1 ∧ (f₁ b₁).2 = (f₂ b₂).2) :
    ∀ (n : Nat) {b₁ b₂ : Builder T} (lastState : Nat),
      List.Forall₂ StateRel b₁ b₂ →
      List.Forall₂ StateRel (compileCopies f₁ n (b₁, lastState)).1
        (compileCopies f₂ n (b₂, lastState)).1 ∧
      (compileCopies f₁ n (b₁, lastState)).2 =
        (compileCopies f₂ n (b₂, lastState)).2 := by
  intro n
  induction n with
  | zero =>
    intro b₁ b₂ lastState h
    exact ⟨h, rfl⟩
  | succ n ih =>
    intro b₁ b₂ lastState h
    simp only [compileCopies]
    obtain ⟨hb', hids⟩ := hf b₁ b₂ h
    have hs : (f₁ b₁).2.1 = (f₂ b₂).2.1 := by rw [hids]
    have ha : (f₁ b₁).2.2 = (f₂ b₂).2.2 := by rw [hids]
    rw [← hs, ← ha]
    exact ih _ (pushEps_congr hb' lastState (List.Perm.refl _))

theorem compileOptCopies_congr {T : Type}
    {f₁ f₂ : Builder T → Builder T × Nat × Nat}
    (hf : ∀ b₁ b₂, List.Forall₂ StateRel b₁ b₂ →
      List.Forall₂ StateRel (f₁ b₁).1 (f₂ b₂).1 ∧ (f₁ b₁).2 = (f₂ b₂).2)
    (accept : Nat) (g₁ g₂ : Bool) :
    ∀ (n : Nat) {b₁ b₂ : Builder T} (lastState : Nat),
      List.Forall₂ StateRel b₁ b₂ →
      List.Forall₂ StateRel (compileOptCopies f₁ accept g₁ n (b₁, lastState)).1
        (compileOptCopies f₂ accept g₂ n (b₂, lastState)).1 ∧
      (compileOptCopies f₁ accept g₁ n (b₁, lastState)).2 =
        (compileOptCopies f₂ accept g₂ n (b₂, lastState)).2 := by
  intro n
  induction n with
  | zero =>
    intro b₁ b₂ lastState h
    exact ⟨h, rfl⟩
  | succ n ih =>
    intro b₁ b₂ lastState h
    simp only [compileOptCopies]
    obtain ⟨hb', hids⟩ := hf b₁ b₂ h
    have hs : (f₁ b₁).2.1 = (f₂ b₂).2.1 := by rw [hids]
    have ha : (f₁ b₁).2.2 = (f₂ b₂).2.2 := by rw [hids]
    rw [← hs, ← ha]
    exact ih _ (pushEps_congr hb' lastState (ifPerm g₁ g₂ _ _))

theorem linkFragments_congr {T : Type} :
    ∀ (frags : List (Nat × Nat)) {b₁ b₂ : Builder T},
      List.Forall₂ StateRel b₁ b₂ →
      List.Forall₂ StateRel (linkFragments b₁ frags)
        (linkFragments b₂ frags) := by
  intro frags
  induction frags with
  | nil =>
    intro b₁ b₂ h
    exact h
  | cons f rest ih =>
    cases rest with
    | nil =>
      intro b₁ b₂ h
      exact h
    | cons f2 rest2 =>
      intro b₁ b₂ h
      rcases f with ⟨s1, a1⟩
      rcases f2 with ⟨s2, a2⟩
      simp only [linkFragments]
      exact ih (pushEps_congr h a1 (List.Perm.refl _))

theorem compileChildren_congr {T : Type} :
    ∀ {cs₁ cs₂ : List (PatternNode T)}, List.Forall₂ SameShape cs₁ cs₂ →
      ∀ (H : ∀ c₁ c₂, c₁ ∈ cs₁ → SameShape c₁ c₂ →
        ∀ (b₁ b₂ : Builder T), List.Forall₂ StateRel b₁ b₂ →
          List.Forall₂ StateRel (compileNode c₁ b₁).1 (compileNode c₂ b₂).1 ∧
          (compileNode c₁ b₁).2 = (compileNode c₂ b₂).2),
      ∀ {b₁ b₂ : Builder T}, List.Forall₂ StateRel b₁ b₂ →
        List.Forall₂ StateRel (compileChildren cs₁ b₁).1
          (compileChildren cs₂ b₂).1 ∧
        (compileChildren cs₁ b₁).2 = (compileChildren cs₂ b₂).2 := by
  intro cs₁ cs₂ hcs
  induction hcs with
  | nil =>
    intro H b₁ b₂ h
    exact ⟨h, rfl⟩
  | cons hc hrest ih =>
    intro H b₁ b₂ h
    simp only [compileChildren]
    obtain ⟨hb', hid⟩ := H _ _ (List.mem_cons_self _ _) hc b₁ b₂ h
    obtain ⟨hb'', hids⟩ :=
      ih (fun c₁ c₂ hm hs => H c₁ c₂ (List.mem_cons_of_mem _ hm) hs) hb'
    rw [hid]
    refine ⟨hb'', ?_⟩
    rw [hids]

theorem compileNode_congr {T : Type} :
    ∀ (n : Nat) (t₁ t₂ : PatternNode T), sizeP t₁ ≤ n → SameShape t₁ t₂ →
      ∀ (b₁ b₂ : Builder T), List.Forall₂ StateRel b₁ b₂ →
        List.Forall₂ StateRel (compileNode t₁ b₁).1 (compileNode t₂ b₂).1 ∧
        (compileNode t₁ b₁).2 = (compileNode t₂ b₂).2 := by
  intro n
  induction n with
  | zero =>
    intro t₁ t₂ hsize
    exact absurd hsize (by have := sizeP_pos t₁; omega)
  | succ n ih =>
    intro t₁ t₂ hsize hshape b₁ b₂ hb
    have hlen : b₁.length = b₂.length := hb.length_eq
    have hfresh : List.Forall₂ StateRel (b₁ ++ [(⟨[], [], none⟩ : NFAState T)])
        (b₂ ++ [⟨[], [], none⟩]) :=
      forall2_append hb (.cons (stateRel_refl _) .nil)
    have hfresh2 : List.Forall₂ StateRel
        ((b₁ ++ [(⟨[], [], none⟩ : NFAState T)]) ++ [⟨[], [], none⟩])
        ((b₂ ++ [⟨[], [], none⟩]) ++ [⟨[], [], none⟩]) :=
      forall2_append hfresh (.cons (stateRel_refl _) .nil)
    cases hshape with
    | predicate fn =>
      simp only [compileNode, createState, List.length_append,
        List.length_cons, List.length_nil, Nat.zero_add]
      rw [hlen]
      exact ⟨pushTrans_congr hfresh2 _ _ _, rfl⟩
    | any =>
      simp only [compileNode, createState, List.length_append,
        List.length_cons, List.length_nil, Nat.zero_add]
      rw [hlen]
      exact ⟨pushTrans_congr hfresh2 _ _ _, rfl⟩
    | anchor p =>
      simp only [compileNode, createState, List.length_append,
        List.length_cons, List.length_nil, Nat.zero_add]
      rw [hlen]
      exact ⟨pushEps_congr (setAnchor_congr hfresh2 _ _) _ (List.Perm.refl _),
        rfl⟩
    | sequence hcs =>
      cases hcs with
      | nil =>
        simp only [compileNode, createState, List.length_append,
          List.length_cons, List.length_nil, Nat.zero_add]
        rw [hlen]
        exact ⟨pushEps_congr hfresh2 _ (List.Perm.refl _), rfl⟩
      | cons hc htail =>
        rename_i c₁ c₂ rest₁ rest₂
        cases htail with
        | nil =>
          simp only [compileNode]
          refine ih c₁ c₂ ?_ hc b₁ b₂ hb
          simp only [sizeP, sizePL] at hsize
          omega
        | cons hc2 htail2 =>
          rename_i d₁ d₂ rr₁ rr₂
          have hszL : sizePL (c₁ :: d₁ :: rr₁) ≤ n := by
            simp only [sizeP] at hsize
            omega
          have H : ∀ e₁ e₂, e₁ ∈ c₁ :: d₁ :: rr₁ → SameShape e₁ e₂ →
              ∀ (bb₁ bb₂ : Builder T), List.Forall₂ StateRel bb₁ bb₂ →
                List.Forall₂ StateRel (compileNode e₁ bb₁).1
                  (compileNode e₂ bb₂).1 ∧
                (compileNode e₁ bb₁).2 = (compileNode e₂ bb₂).2 := by
            intro e₁ e₂ hm hs bb₁ bb₂ hbb
            refine ih e₁ e₂ ?_ hs bb₁ bb₂ hbb
            have := sizeP_le_of_mem hm
            omega
          obtain ⟨hbuild, hfr⟩ :=
            compileChildren_congr (.cons hc (.cons hc2 htail2)) H hb
          simp only [compileNode]
          rw [hfr]
          exact ⟨linkFragments_congr _ hbuild, rfl⟩
    | quantifier min max g₁ g₂ hc =>
      rename_i c₁ c₂
      have hf : ∀ (bb₁ bb₂ : Builder T), List.Forall₂ StateRel bb₁ bb₂ →
          List.Forall₂ StateRel (compileNode c₁ bb₁).1
            (compileNode c₂ bb₂).1 ∧
          (compileNode c₁ bb₁).2 = (compileNode c₂ bb₂).2 := by
        intro bb₁ bb₂ hbb
        refine ih c₁ c₂ ?_ hc bb₁ bb₂ hbb
        simp only [sizeP] at hsize
        omega
      cases max with
      | none =>
        simp only [compileNode, createState, List.length_append,
          List.length_cons, List.length_nil, Nat.zero_add]
        rw [hlen]
        obtain ⟨hb3, hlast⟩ := compileCopies_congr hf min (b₂.length) hfresh2
        obtain ⟨hq, hqids⟩ := hf _ _ hb3
        have hqs := congrArg Prod.fst hqids
        have hqa := congrArg Prod.snd hqids
        simp only [] at hqs hqa
        rw [← hlast, ← hqs, ← hqa]
        exact ⟨pushEps_congr (pushEps_congr hq _ (ifPerm g₁ g₂ _ _)) _
          (List.Perm.refl _), rfl⟩
      | some m =>
        simp only [compileNode, createState, List.length_append,
          List.length_cons, List.length_nil, Nat.zero_add]
        rw [hlen]
        obtain ⟨hb3, hlast⟩ := compileCopies_congr hf min (b₂.length) hfresh2
        rw [← hlast]
        obtain ⟨ho, holast⟩ :=
          compileOptCopies_congr hf (b₂.length + 1) g₁ g₂ (m - min) _ hb3
        rw [← holast]
        exact ⟨pushEps_congr ho _ (List.Perm.refl _), rfl⟩
    | alternation hl hr =>
      rename_i l₁ l₂ r₁ r₂
      simp only [compileNode, createState, List.length_append,
        List.length_cons, List.length_nil, Nat.zero_add]
      rw [hlen]
      obtain ⟨hL, hLids⟩ := ih l₁ l₂
        (by simp only [sizeP] at hsize; omega) hl _ _ hfresh2
      obtain ⟨hR2, hRids⟩ := ih r₁ r₂
        (by simp only [sizeP] at hsize; omega) hr _ _ hL
      have hLs := congrArg Prod.fst hLids
      have hLa := congrArg Prod.snd hLids
      have hRs := congrArg Prod.fst hRids
      have hRa := congrArg Prod.snd hRids
      simp only [] at hLs hLa hRs hRa
      rw [← hLs, ← hLa, ← hRs, ← hRa]
      exact ⟨pushEps_congr (pushEps_congr (pushEps_congr hR2 _
        (List.Perm.refl _)) _ (List.Perm.refl _)) _ (List.Perm.refl _), rfl⟩

theorem compile_congr {T : Type} {t₁ t₂ : PatternNode T}
    (h : SameShape t₁ t₂) :
    List.Forall₂ StateRel (compile t₁).states (compile t₂).states ∧
      (compile t₁).start = (compile t₂).start ∧
      (compile t₁).accept = (compile t₂).accept := by
  obtain ⟨hstates, hids⟩ :=
    compileNode_congr (sizeP t₁) t₁ t₂ (le_refl _) h [] [] .nil
  refine ⟨hstates, ?_, ?_⟩
  · simp only [compile]
    rw [hids]
  · simp only [compile]
    rw [hids]

/-- C4: for two pattern trees differing only in the greedy flag of one
quantifier (`true` in the first, `false` in the second), compiled and
simulated with their own derived whole-pattern greedy flags, if both
match at the same start offset then the greedy match length is at least
the lazy match length.  The flag only affects the insertion order of two
epsilon edges, so the two automata have the same closure sets and record
the same candidate set; greedy simulation returns its maximum, lazy its
minimum. -/
theorem greedy_length_ge_lazy_length :
    ∀ (T : Type) (t₁ t₂ : PatternNode T), FlipAt t₁ t₂ →
      ∀ (sequence : List T) (offset : Nat),
        (simulate (compile t₁) sequence offset (isGreedy t₁)).matched = true →
        (simulate (compile t₂) sequence offset (isGreedy t₂)).matched = true →
        (simulate (compile t₂) sequence offset (isGreedy t₂)).length ≤
          (simulate (compile t₁) sequence offset (isGreedy t₁)).length := by
  intro T t₁ t₂ hflip sequence offset h₁ h₂
  obtain ⟨hstates, hstart, haccept⟩ := compile_congr (flipAt_sameShape hflip)
  have hsim : ∀ g, simulate (compile t₁) sequence offset g =
      simulate (compile t₂) sequence offset g :=
    fun g => simulate_congr hstates hstart haccept sequence offset g
  rw [flipAt_isGreedy_false hflip] at h₂ ⊢
  cases hg₁ : isGreedy t₁ with
  | false => rw [hsim false]
  | true =>
    rw [← hsim false]
    refine greedy_ge_lazy_same_graph (compile t₁) sequence offset ?_
    rw [hsim false]
    exact h₂

theorem greedy_length_ge_lazy_length_witness :
    FlipAt (tRep true) (tRep false) ∧
    (simulate (compile (tRep true)) [5, 5] 0 (isGreedy (tRep true))).matched
      = true ∧
    (simulate (compile (tRep false)) [5, 5] 0
      (isGreedy (tRep false))).matched = true ∧
    (simulate (compile (tRep false)) [5, 5] 0
        (isGreedy (tRep false))).length ≤
      (simulate (compile (tRep true)) [5, 5] 0
        (isGreedy (tRep true))).length :=
  ⟨FlipAt.here _ 1 (some 2), by decide, by decide,
    greedy_length_ge_lazy_length Nat (tRep true) (tRep false)
      (FlipAt.here _ 1 (some 2)) [5, 5] 0 (by decide) (by decide)⟩

end Predex
